import Mathlib

/-!
maps-express: render manager and endpoint table.

A shallow embedding of `src/rendermanager.cpp` and `src/httphandlerfactory.cpp`.

* JSON values follow JsonCpp's `Json::Value`: `operator[]` on a value that is
  neither null nor an object raises `Json::LogicError`, which the embedding
  renders as `none`.
* The render manager is a record of its members; the render pool (absent from
  the sources) is a record of the calls made on it.
* `TryProcessStyleUpdate` and `FinishUpdate` call each other; the embedding
  threads a fuel counter through them and returns `none` when it runs out.
-/

namespace MapsExpress

/-! ## JSON values -/

/-- A `Json::Value`. Integers of both signs share one constructor (JsonCpp's
`isInt`/`isUInt` look at the value, not at the tag); reals are rationals. -/
inductive Json where
  | null
  | int (i : Int)
  | real (q : Rat)
  | str (s : String)
  | bool (b : Bool)
  | arr (xs : List Json)
  | obj (kvs : List (String × Json))

namespace Json

def isNull : Json → Bool
  | null => true
  | _ => false

def isObject : Json → Bool
  | obj _ => true
  | _ => false

def isString : Json → Bool
  | str _ => true
  | _ => false

def isBool : Json → Bool
  | bool _ => true
  | _ => false

/-- `Json::Value::isUInt`: a non-negative integral value that fits 32 bits. -/
def isUInt : Json → Bool
  | int i => decide (0 ≤ i ∧ i ≤ 4294967295)
  | real q => decide (q.den = 1 ∧ 0 ≤ q.num ∧ q.num ≤ 4294967295)
  | _ => false

/-- `Json::Value::isInt`: an integral value that fits a signed 32-bit int. -/
def isInt : Json → Bool
  | int i => decide (-2147483648 ≤ i ∧ i ≤ 2147483647)
  | real q => decide (q.den = 1 ∧ -2147483648 ≤ q.num ∧ q.num ≤ 2147483647)
  | _ => false

/-- `Json::Value::asUInt`, used only behind `isUInt`. -/
def asUInt : Json → Nat
  | int i => i.toNat
  | real q => q.num.toNat
  | _ => 0

/-- `Json::Value::asInt`, used only behind `isInt`. -/
def asInt : Json → Int
  | int i => i
  | real q => q.num
  | _ => 0

/-- `Json::Value::asString`, used only behind `isString`. -/
def asString : Json → String
  | str s => s
  | _ => ""

/-- `Json::Value::asBool`: null is false, numbers are compared with zero, and a
string, array or object raises `Json::LogicError` (`none`). -/
def asBool : Json → Option Bool
  | bool b => some b
  | null => some false
  | int i => some (decide (i ≠ 0))
  | real q => some (decide (q ≠ 0))
  | _ => none

/-- First member called `key` of a member list. -/
def find (key : String) : List (String × Json) → Option Json
  | [] => none
  | (k, v) :: rest => if k = key then some v else find key rest

/-- `Json::Value::operator[](key) const`: the member, or null when the member is
missing or the value is null; `none` when the value is neither null nor an
object (JsonCpp raises `Json::LogicError`). -/
def get (j : Json) (key : String) : Option Json :=
  match j with
  | null => some null
  | obj kvs => some ((find key kvs).getD null)
  | _ => none

/-- The values a range-for over a `Json::Value` visits: array elements, object
members in stored order, nothing for any other value. -/
def elems : Json → List Json
  | arr xs => xs
  | obj kvs => kvs.map Prod.snd
  | _ => []

end Json

/-! ## Styles -/

/-- Modelled from the spec: the declaration of `StyleInfo` is absent; the spec
gives it as `{name, path, allow_grid_render, version}`. -/
structure StyleInfo where
  name : String
  path : String
  allow_grid_render : Bool
  version : Nat
  deriving DecidableEq, Repr

/-- Modelled from the spec: the element `emplace_back()` creates. The spec names
no defaults; a value-initialised record is assumed. -/
def StyleInfo.fresh : StyleInfo :=
  { name := "", path := "", allow_grid_render := false, version := 0 }

/-- `ParseStyleInfo`. The first component is the returned bool, `none` when a
`Json::LogicError` leaves the function; the second is `style_info` as the
function left it. -/
def ParseStyleInfo (name : String) (jstyle_info : Json) (style_info : StyleInfo) :
    Option Bool × StyleInfo :=
  let style_info := { style_info with name := name }
  if style_info.name.isEmpty then (some false, style_info) else
  match jstyle_info.get "map" with
  | none => (none, style_info)
  | some jmap_path =>
    match jmap_path with
    | Json.str p =>
      let style_info := { style_info with path := p }
      match jstyle_info.get "allow_utfgrid" with
      | none => (none, style_info)
      | some jutfgrid_allowed =>
        let assigned : Option StyleInfo :=
          if !jutfgrid_allowed.isBool then
            match jutfgrid_allowed.asBool with
            | none => none
            | some b => some { style_info with allow_grid_render := b }
          else some style_info
        match assigned with
        | none => (none, style_info)
        | some style_info =>
          match jstyle_info.get "version" with
          | none => (none, style_info)
          | some jversion =>
            if jversion.isUInt then
              (some true, { style_info with version := jversion.asUInt })
            else (some true, style_info)
    | _ => (some false, style_info)

/-- The loop of `ParseStyles` over the members of the object, appending to
`styles`. -/
def ParseStylesLoop : List (String × Json) → List StyleInfo → Option Bool × List StyleInfo
  | [], styles => (some true, styles)
  | (style_name, jstyle) :: rest, styles =>
    match ParseStyleInfo style_name jstyle StyleInfo.fresh with
    | (some true, info) => ParseStylesLoop rest (styles ++ [info])
    | (some false, _) => (some false, styles)
    | (none, info) => (none, styles ++ [info])

/-- `ParseStyles`: appends to `styles`; false for a non-object or at the first
rejected member. -/
def ParseStyles (jstyles : Json) (styles : List StyleInfo) : Option Bool × List StyleInfo :=
  match jstyles with
  | Json.obj kvs => ParseStylesLoop kvs styles
  | _ => (some false, styles)

/-! ## Render pool and render manager -/

/-- A `RenderWorker*`: workers are told apart by a number. -/
abbrev Worker := Nat

/-- What a closure handed to `ExecuteOnWorker` does on its worker. -/
inductive Action where
  | UpdateWorker
  | CancelUpdate
  | CommitUpdate
  deriving DecidableEq, Repr

/-- One `ExecuteOnWorker` call. The target is `none` when the pointer was read
with `back()` from an empty vector. -/
structure Dispatch where
  action : Action
  target : Option Worker
  deriving DecidableEq, Repr

/-- A tile id; its `Valid()` is declared outside the sources and is passed to
`MakeSubtile` as a function. -/
structure TileId where
  x : Nat
  y : Nat
  z : Nat
  deriving DecidableEq, Repr

structure RenderRequest where
  style_name : String
  tile_id : TileId
  deriving DecidableEq, Repr

/-- A subtile request: `mvt_tile_id` is `request->mvt_tile.id`. -/
structure SubtileRequest where
  mvt_tile_id : TileId
  tile_id : TileId
  deriving DecidableEq, Repr

/-- A `RenderTask`: the two callbacks (told apart by a number) and the third
constructor argument. -/
structure RenderTask where
  success_callback : Nat
  error_callback : Nat
  flag : Bool
  deriving DecidableEq, Repr

/-- A `TileWorkTask{task, request}`. -/
structure TileWorkTask where
  task : RenderTask
  request : RenderRequest ⊕ SubtileRequest
  deriving DecidableEq

/-- Modelled from the spec: `RenderPool` is absent. The record keeps the worker
list `Workers()` returns and the calls made on the pool, oldest first:
`tasks` for `PostTask`, `control` for `ExecuteOnWorker`; `inbox` holds the
targets of the queued `UpdateWorker` closures that have not run yet. -/
structure RenderPool where
  workers : List Worker
  tasks : List TileWorkTask
  control : List Dispatch
  inbox : List (Option Worker)

/-- The members of `RenderManager` the update protocol and the admission checks
use. `parsed_`, `notified_` and `threw_` are ghost fields: the snapshots handed
to `ParseStyles`, the tasks on which the manager called `NotifyError`, and
whether a `Json::LogicError` left `ParseStyles`. -/
structure RenderManager where
  style_names_ : List String
  render_pool_ : RenderPool
  inited_ : Bool
  updating_ : Bool
  styles_update_ : Option Json
  pending_update_ : List StyleInfo
  workers_to_update_ : List Worker
  updated_workers_ : List (Option Worker)
  parsed_ : List Json
  notified_ : List RenderTask
  threw_ : Bool

/-- `std::unordered_set::insert`: no effect when the name is present. -/
def insertName (names : List String) (name : String) : List String :=
  if name ∈ names then names else names ++ [name]

namespace RenderManager

/-- `render_pool_.PostTask(task)`: the call is recorded. -/
def PostTask (s : RenderManager) (t : TileWorkTask) : RenderManager :=
  { s with render_pool_ := { s.render_pool_ with tasks := s.render_pool_.tasks ++ [t] } }

/-- `render_pool_.ExecuteOnWorker(closure, target)`: the call is recorded, and an
`UpdateWorker` closure is queued for its target. -/
def ExecuteOnWorker (s : RenderManager) (a : Action) (target : Option Worker) : RenderManager :=
  { s with render_pool_ :=
      { s.render_pool_ with
        control := s.render_pool_.control ++ [{ action := a, target := target }]
        inbox := if a = Action.UpdateWorker then s.render_pool_.inbox ++ [target]
                 else s.render_pool_.inbox } }

/-- Modelled from the spec: `has_style` is declared in the absent header; the
request path looks the name up in the current style-name set. -/
def has_style (s : RenderManager) (name : String) : Bool :=
  decide (name ∈ s.style_names_)

/-- `RenderManager::Render`: the returned task and the manager afterwards. -/
def Render (s : RenderManager) (request : RenderRequest)
    (success_callback error_callback : Nat) : RenderTask × RenderManager :=
  let task : RenderTask :=
    { success_callback := success_callback, error_callback := error_callback, flag := true }
  if !s.has_style request.style_name then
    (task, { s with notified_ := s.notified_ ++ [task] })
  else
    (task, s.PostTask { task := task, request := Sum.inl request })

/-- `RenderManager::MakeSubtile`; `Valid` is `TileId::Valid`. -/
def MakeSubtile (Valid : TileId → Bool) (s : RenderManager) (request : SubtileRequest)
    (success_callback error_callback : Nat) : RenderTask × RenderManager :=
  let task : RenderTask :=
    { success_callback := success_callback, error_callback := error_callback, flag := true }
  if !(Valid request.mvt_tile_id && Valid request.tile_id) then
    (task, { s with notified_ := s.notified_ ++ [task] })
  else
    (task, s.PostTask { task := task, request := Sum.inr request })

mutual

/-- `RenderManager::TryProcessStyleUpdate`; `none` when the fuel runs out. -/
def TryProcessStyleUpdate : Nat → RenderManager → Option RenderManager
  | 0, _ => none
  | fuel + 1, s =>
    if !s.inited_ || s.styles_update_.isNone then some s else
    if s.updating_ then some s else
    let jstyles := s.styles_update_
    let s := { s with updating_ := true, styles_update_ := none }
    match jstyles with
    | none => FinishUpdate fuel s
    | some j =>
      match ParseStyles j s.pending_update_ with
      | (none, pending) =>
        some { s with pending_update_ := pending, parsed_ := s.parsed_ ++ [j], threw_ := true }
      | (some false, pending) =>
        FinishUpdate fuel { s with pending_update_ := pending, parsed_ := s.parsed_ ++ [j] }
      | (some true, pending) =>
        let s := { s with pending_update_ := pending, parsed_ := s.parsed_ ++ [j],
                          workers_to_update_ := s.render_pool_.workers }
        some (s.ExecuteOnWorker Action.UpdateWorker s.workers_to_update_.getLast?)

/-- `RenderManager::FinishUpdate`; `none` when the fuel runs out. -/
def FinishUpdate : Nat → RenderManager → Option RenderManager
  | 0, _ => none
  | fuel + 1, s =>
    TryProcessStyleUpdate fuel
      { s with workers_to_update_ := [], updated_workers_ := [], pending_update_ := [],
               updating_ := false }

end

/-- `RenderManager::PostStyleUpdate`. -/
def PostStyleUpdate (fuel : Nat) (jstyles : Json) (s : RenderManager) : Option RenderManager :=
  TryProcessStyleUpdate fuel { s with styles_update_ := some jstyles }

/-- The loop `for (rw : updated_workers_) ExecuteOnWorker(closure, rw)`. -/
def ExecuteOnUpdated (a : Action) (s : RenderManager) : RenderManager :=
  s.updated_workers_.foldl (fun m rw => m.ExecuteOnWorker a rw) s

/-- `RenderManager::UpdateWorker`, run on `worker`; `UpdateStyles` is
`RenderWorker::UpdateStyles`, of which the manager sees the returned bool. -/
def UpdateWorker (UpdateStyles : Worker → List StyleInfo → Bool) (fuel : Nat)
    (worker : Worker) (s : RenderManager) : Option RenderManager :=
  if !UpdateStyles worker s.pending_update_ then
    FinishUpdate fuel (s.ExecuteOnUpdated Action.CancelUpdate)
  else
    let s := { s with updated_workers_ := s.updated_workers_ ++ [s.workers_to_update_.getLast?],
                      workers_to_update_ := s.workers_to_update_.dropLast }
    if s.workers_to_update_.isEmpty then
      let s := s.ExecuteOnUpdated Action.CommitUpdate
      let new_style_names := s.pending_update_.foldl (fun names info => insertName names info.name) []
      FinishUpdate fuel { s with style_names_ := new_style_names }
    else
      some (s.ExecuteOnWorker Action.UpdateWorker s.workers_to_update_.getLast?)

/-- The pool runs the oldest queued `UpdateWorker` closure on its target. Nothing
runs when the queue is empty or the target was read from an empty vector (the
behaviour of the program is then undefined). -/
def PoolStep (UpdateStyles : Worker → List StyleInfo → Bool) (fuel : Nat)
    (s : RenderManager) : Option RenderManager :=
  match s.render_pool_.inbox with
  | [] => some s
  | none :: _ => some s
  | some w :: rest =>
    UpdateWorker UpdateStyles fuel w { s with render_pool_ := { s.render_pool_ with inbox := rest } }

/-- The pool runs queued `UpdateWorker` closures, `n` times in a row. -/
def PoolRun (UpdateStyles : Worker → List StyleInfo → Bool) (fuel : Nat) :
    Nat → RenderManager → Option RenderManager
  | 0, s => some s
  | n + 1, s => (PoolStep UpdateStyles fuel s).bind (PoolRun UpdateStyles fuel n)

/-- The targets of the `a` closures among the recorded `ExecuteOnWorker` calls. -/
def targetsOf (a : Action) (s : RenderManager) : List (Option Worker) :=
  (s.render_pool_.control.filter (fun d => decide (d.action = a))).map Dispatch.target

end RenderManager

/-! ## Endpoint table -/

inductive EndpointType where
  | static_files
  | render
  | mvt
  deriving DecidableEq, Repr

/-- A `FilterTable(filter_map_path, maxzoom)`: the constructor arguments. -/
structure FilterTable where
  path : String
  maxzoom : Int
  deriving DecidableEq, Repr

/-- Modelled from the spec: the declaration of `EndpointParams` is absent; the
fields are those `ParseEndpoints` assigns. -/
structure EndpointParams where
  minzoom : Int
  maxzoom : Int
  zoom_offset : Int
  provider_name : String
  style_name : String
  allow_layers_query : Bool
  type : EndpointType
  allow_utf_grid : Bool
  utfgrid_key : String
  filter_table : Option FilterTable
  auto_metatile_size : Bool
  metatile_height : Nat
  metatile_width : Nat
  deriving DecidableEq, Repr

/-- Modelled from the spec: the record `std::make_shared<EndpointParams>()`
creates. The spec gives the zoom range 0..19 with offset 0, metatiles of 1x1,
and no automatic metatile size or UTF-grid unless the entry asks for it. -/
def EndpointParams.fresh : EndpointParams :=
  { minzoom := 0, maxzoom := 19, zoom_offset := 0, provider_name := "", style_name := "",
    allow_layers_query := false, type := EndpointType.static_files, allow_utf_grid := false,
    utfgrid_key := "", filter_table := none, auto_metatile_size := false,
    metatile_height := 1, metatile_width := 1 }

/-- Modelled from the spec: `json_util::FromJson<int>` is absent; the value when
the JSON value is an int, the default otherwise. -/
def FromJsonInt (j : Json) (dflt : Int) : Int :=
  if j.isInt then j.asInt else dflt

/-- Modelled from the spec: `json_util::FromJson<uint>` is absent; the value when
the JSON value is an unsigned int, the default otherwise. -/
def FromJsonUInt (j : Json) (dflt : Nat) : Nat :=
  if j.isUInt then j.asUInt else dflt

/-- Modelled from the spec: `json_util::FromJson<std::string>` is absent; the
value when the JSON value is a string, the default otherwise. -/
def FromJsonString (j : Json) (dflt : String) : String :=
  match j with
  | Json.str s => s
  | _ => dflt

/-- Modelled from the spec: `json_util::FromJson<bool>` is absent; the value when
the JSON value is a bool, the default otherwise. -/
def FromJsonBool (j : Json) (dflt : Bool) : Bool :=
  match j with
  | Json.bool b => b
  | _ => dflt

/-- The type-specific part of the loop body of `ParseEndpoints`, lines 53-84:
`none` when a `Json::LogicError` is raised, `some none` at a `continue`. -/
def ParseParamsType (jparams : Json) (type : String) (params : EndpointParams) :
    Option (Option EndpointParams) :=
  if type = "static" then
    let params := { params with type := EndpointType.static_files }
    if params.provider_name.isEmpty then some none else some (some params)
  else if type = "render" then do
    let params := { params with type := EndpointType.render }
    let params := { params with allow_utf_grid := FromJsonBool (← jparams.get "allow_utfgrid") false }
    let params := { params with utfgrid_key := FromJsonString (← jparams.get "utfgrid_key") "" }
    let params :=
      { params with
        allow_utf_grid :=
          if params.allow_utf_grid && params.utfgrid_key.isEmpty then false
          else params.allow_utf_grid }
    if params.style_name.isEmpty then some none else some (some params)
  else if type = "mvt" then do
    let params := { params with type := EndpointType.mvt }
    if params.provider_name.isEmpty then some none else
    let filter_map_path := FromJsonString (← jparams.get "filter_map") ""
    some (some { params with
      filter_table :=
        if !filter_map_path.isEmpty then
          some { path := filter_map_path, maxzoom := params.maxzoom }
        else params.filter_table })
  else some none

/-- The metatile part of the loop body of `ParseEndpoints`, lines 85-101. -/
def ParseParamsMetatile (jparams : Json) (params : EndpointParams) : Option EndpointParams := do
  let jmetatile_size ← jparams.get "metatile_size"
  if jmetatile_size.isString then
    if jmetatile_size.asString = "auto" then
      if params.provider_name.isEmpty then some params
      else some { params with auto_metatile_size := true }
    else some params
  else if jmetatile_size.isUInt then
    let metatile_size := jmetatile_size.asUInt
    some { params with metatile_height := metatile_size, metatile_width := metatile_size }
  else
    let params := { params with metatile_height := FromJsonUInt (← jparams.get "metatile_height") 1 }
    some { params with metatile_width := FromJsonUInt (← jparams.get "metatile_width") 1 }

/-- The body of the inner loop of `ParseEndpoints` for one entry: `none` when a
`Json::LogicError` is raised, `some none` when the entry is dropped by a
`continue`, `some (some params)` when `params` is pushed. -/
def ParseParams (jparams : Json) : Option (Option EndpointParams) := do
  let params := EndpointParams.fresh
  let params := { params with minzoom := FromJsonInt (← jparams.get "minzoom") 0 }
  let params := { params with maxzoom := FromJsonInt (← jparams.get "maxzoom") 19 }
  let params := { params with zoom_offset := FromJsonInt (← jparams.get "data_zoom_offset") 0 }
  let params := { params with provider_name := FromJsonString (← jparams.get "data_provider") "" }
  let params := { params with style_name := FromJsonString (← jparams.get "style") "" }
  let params :=
    { params with allow_layers_query := FromJsonBool (← jparams.get "allow_layers_query") false }
  let type := FromJsonString (← jparams.get "type") "static"
  match ← ParseParamsType jparams type params with
  | none => some none
  | some params => (ParseParamsMetatile jparams params).map some

/-- The inner loop of `ParseEndpoints` over the entries of one path. -/
def ParseEndpoint : List Json → List EndpointParams → Option (List EndpointParams)
  | [], endpoint => some endpoint
  | jparams :: rest, endpoint =>
    match ParseParams jparams with
    | none => none
    | some none => ParseEndpoint rest endpoint
    | some (some params) => ParseEndpoint rest (endpoint ++ [params])

/-- An `endpoints_map_t`: the stored pairs. -/
abbrev EndpointsMap := List (String × List EndpointParams)

/-- `endpoints_map->find(path)`. -/
def findEndpoint (path : String) : EndpointsMap → Option (List EndpointParams)
  | [] => none
  | (k, v) :: rest => if k = path then some v else findEndpoint path rest

/-- The outer loop of `ParseEndpoints` over the members of the object. -/
def ParseEndpointsLoop : List (String × Json) → EndpointsMap → Option EndpointsMap
  | [], endpoints_map => some endpoints_map
  | (endpoint_path, jendpoint) :: rest, endpoints_map =>
    if (findEndpoint endpoint_path endpoints_map).isSome then
      ParseEndpointsLoop rest endpoints_map
    else
      match ParseEndpoint jendpoint.elems [] with
      | none => none
      | some endpoint => ParseEndpointsLoop rest (endpoints_map ++ [(endpoint_path, endpoint)])

/-- `ParseEndpoints`: `none` when a `Json::LogicError` is raised, `some none` for
the null pointer, `some (some table)` otherwise. -/
def ParseEndpoints (jendpoints : Json) : Option (Option EndpointsMap) :=
  match jendpoints with
  | Json.obj kvs => (ParseEndpointsLoop kvs []).map some
  | _ => some none

/-! ### The validity constraints in the words of the specification -/

/-- The `type` of an entry: `static` when the key is absent. -/
def entryType (jparams : Json) : String :=
  FromJsonString ((jparams.get "type").getD Json.null) "static"

/-- The `data_provider` of an entry, empty when absent. -/
def entryProvider (jparams : Json) : String :=
  FromJsonString ((jparams.get "data_provider").getD Json.null) ""

/-- The `style` of an entry, empty when absent. -/
def entryStyle (jparams : Json) : String :=
  FromJsonString ((jparams.get "style").getD Json.null) ""

/-- The validity constraints of the specification: the type is one of `static`,
`render`, `mvt`; a `static` or `mvt` entry names a provider; a `render` entry
names a style. -/
def ValidEntry (jparams : Json) : Bool :=
  ((entryType jparams = "static" ∨ entryType jparams = "mvt") ∧ entryProvider jparams ≠ "") ∨
  (entryType jparams = "render" ∧ entryStyle jparams ≠ "")

/-- An endpoint-param object of the configuration schema: a JSON object (or
null, which JsonCpp reads as an object without members). -/
def IsEntry (jparams : Json) : Bool :=
  jparams.isObject || jparams.isNull

/-! ## States of the update protocol -/

namespace RenderManager

/-- The manager after the four assignments of `FinishUpdate`. -/
def released (s : RenderManager) : RenderManager :=
  { s with workers_to_update_ := [], updated_workers_ := [], pending_update_ := [],
           updating_ := false }

/-- The manager after further `ExecuteOnWorker` calls that queue no
`UpdateWorker` closure. -/
def withControl (s : RenderManager) (ds : List Dispatch) : RenderManager :=
  { s with render_pool_ := { s.render_pool_ with control := s.render_pool_.control ++ ds } }

/-- The set `UpdateWorker` builds from the names of the pending styles. -/
def styleNamesOf (L : List StyleInfo) : List String :=
  L.foldl (fun names info => insertName names info.name) []

/-- `ExecuteOnWorker` calls that hand `UpdateWorker` to the given workers, in order. -/
def updateCalls (ws : List Worker) : List Dispatch :=
  ws.map (fun x => { action := Action.UpdateWorker, target := some x })

/-- `ExecuteOnWorker` calls that hand an `a` closure to the given targets, in order. -/
def callsOn (a : Action) (ws : List (Option Worker)) : List Dispatch :=
  ws.map (fun rw => { action := a, target := rw })

/-- The manager an update leaves when every remaining prepare succeeds. -/
def committed (s : RenderManager) : RenderManager :=
  { s with
    style_names_ := styleNamesOf s.pending_update_
    render_pool_ :=
      { s.render_pool_ with
        inbox := []
        control := s.render_pool_.control ++ updateCalls s.workers_to_update_.dropLast.reverse
          ++ callsOn Action.CommitUpdate
              (s.updated_workers_ ++ s.workers_to_update_.reverse.map some) }
    workers_to_update_ := [], updated_workers_ := [], pending_update_ := [], updating_ := false }

/-- The manager after a successful prepare that is not the last one. -/
def advanced (s : RenderManager) : RenderManager :=
  ExecuteOnWorker
    { s with
      render_pool_ := { s.render_pool_ with inbox := [] }
      updated_workers_ := s.updated_workers_ ++ [s.workers_to_update_.getLast?]
      workers_to_update_ := s.workers_to_update_.dropLast }
    Action.UpdateWorker s.workers_to_update_.dropLast.getLast?

/-- The manager an update leaves when a prepare fails: `asked` are the workers
handed `UpdateWorker` on the way, `prepared` those whose prepare succeeded on
the way. -/
def cancelled (s : RenderManager) (asked prepared : List Worker) : RenderManager :=
  { s with
    render_pool_ :=
      { s.render_pool_ with
        inbox := []
        control := s.render_pool_.control ++ updateCalls asked
          ++ callsOn Action.CancelUpdate (s.updated_workers_ ++ prepared.map some) }
    workers_to_update_ := [], updated_workers_ := [], pending_update_ := [], updating_ := false }

/-- The manager after a drain that parsed `X` into `L` and handed `UpdateWorker`
to the last worker. -/
def started (s : RenderManager) (X : Json) (L : List StyleInfo) : RenderManager :=
  ExecuteOnWorker
    { s with updating_ := true, styles_update_ := none, pending_update_ := L,
             parsed_ := s.parsed_ ++ [X], workers_to_update_ := s.render_pool_.workers }
    Action.UpdateWorker s.render_pool_.workers.getLast?

/-! ### Sample managers and snapshots -/

/-- An idle, initialised manager over the pool `W` that publishes `names`. -/
def idleManager (W : List Worker) (names : List String) : RenderManager :=
  { style_names_ := names
    render_pool_ := { workers := W, tasks := [], control := [], inbox := [] }
    inited_ := true, updating_ := false, styles_update_ := none, pending_update_ := []
    workers_to_update_ := [], updated_workers_ := [], parsed_ := [], notified_ := []
    threw_ := false }

/-- The snapshot `{"s2": {"map": "/m/s2.xml"}}`. -/
def sampleSnapshot : Json :=
  Json.obj [("s2", Json.obj [("map", Json.str "/m/s2.xml")])]

/-- The list `sampleSnapshot` parses to. -/
def sampleStyles : List StyleInfo :=
  [{ name := "s2", path := "/m/s2.xml", allow_grid_render := false, version := 0 }]

/-- A prepare that fails on worker 2 only. -/
def failsOnTwo (w : Worker) (_ : List StyleInfo) : Bool :=
  decide (w ≠ 2)

/-- A prepare that succeeds everywhere. -/
def alwaysPrepared (_ : Worker) (_ : List StyleInfo) : Bool :=
  true

/-- A `Valid()` that accepts the zoom levels up to 20. -/
def zoomAtMostTwenty (t : TileId) : Bool :=
  decide (t.z ≤ 20)

end RenderManager

/-! ## Records of the endpoint parser and sample entries -/

/-- The record the loop body has built when it reaches the type test. -/
def entryBase (e : Json) : EndpointParams :=
  { EndpointParams.fresh with
    minzoom := FromJsonInt ((e.get "minzoom").getD Json.null) 0
    maxzoom := FromJsonInt ((e.get "maxzoom").getD Json.null) 19
    zoom_offset := FromJsonInt ((e.get "data_zoom_offset").getD Json.null) 0
    provider_name := entryProvider e
    style_name := entryStyle e
    allow_layers_query := FromJsonBool ((e.get "allow_layers_query").getD Json.null) false }

/-- The `allow_utfgrid` of an entry, false when absent. -/
def entryAllowUtfGrid (jparams : Json) : Bool :=
  FromJsonBool ((jparams.get "allow_utfgrid").getD Json.null) false

/-- The `utfgrid_key` of an entry, empty when absent. -/
def entryUtfGridKey (jparams : Json) : String :=
  FromJsonString ((jparams.get "utfgrid_key").getD Json.null) ""

/-- The record the loop body has built for a render entry that names a style. -/
def entryRender (e : Json) : EndpointParams :=
  { entryBase e with
    type := EndpointType.render
    allow_utf_grid :=
      if entryAllowUtfGrid e && (entryUtfGridKey e).isEmpty then false
      else entryAllowUtfGrid e
    utfgrid_key := entryUtfGridKey e }

/-- A render entry that asks for the UTF-grid without a key and for an
automatic metatile size without a provider. -/
def sampleRenderEntry : Json :=
  Json.obj [("type", Json.str "render"), ("style", Json.str "s1"),
    ("allow_utfgrid", Json.bool true), ("metatile_size", Json.str "auto"),
    ("metatile_width", Json.int 4)]

/-- A render entry that asks for the UTF-grid and gives a key. -/
def sampleGridEntry : Json :=
  Json.obj [("type", Json.str "render"), ("style", Json.str "s1"),
    ("allow_utfgrid", Json.bool true), ("utfgrid_key", Json.str "id")]

/-- The members of an endpoints object with valid and invalid entries. -/
def sampleEndpointMembers : List (String × Json) :=
  [("/t/", Json.arr [
      Json.obj [("type", Json.str "render"), ("metatile_size", Json.int 2)],
      sampleRenderEntry,
      Json.obj [("type", Json.str "bogus"), ("data_provider", Json.str "p")],
      Json.obj [("data_provider", Json.str "p"), ("metatile_size", Json.str "auto")]]),
   ("/g/", Json.arr [sampleGridEntry])]

/-- The record `ParseEndpoints` stores for `sampleGridEntry`. -/
def sampleGridParams : EndpointParams :=
  { EndpointParams.fresh with
    style_name := "s1", type := EndpointType.render, allow_utf_grid := true, utfgrid_key := "id" }

/-! ## Listening ports -/

/-- `kDefaultPort`. -/
def kDefaultPort : Nat := 8080

/-- Lines 155-156 of `main`: `http_port` and `internal_http_port` as read from
the `server` value; `none` when `operator[]` raises `Json::LogicError`. -/
def configuredPorts (jserver : Json) : Option (Nat × Nat) := do
  let http_port := FromJsonUInt (← jserver.get "port") kDefaultPort
  let internal_http_port := FromJsonUInt (← jserver.get "internal_port") (kDefaultPort + 1)
  some (http_port, internal_http_port)

/-- Lines 158-161 of `main`: the ports of the two socket addresses, each a
`static_cast<std::uint16_t>` of the configured value. -/
def listeningPorts (jserver : Json) : Option (Nat × Nat) :=
  (configuredPorts jserver).map (fun ports => (ports.1 % 65536, ports.2 % 65536))

/-- The member `key` of a server object, null when absent. -/
def serverField (kvs : List (String × Json)) (key : String) : Json :=
  (Json.find key kvs).getD Json.null

/-! ## Handler factory -/

/-- Request methods of `proxygen::HTTPMethod`; the enumeration is declared
outside the sources, and the routing only tells `GET` from the rest. -/
inductive HTTPMethod where
  | GET
  | POST
  | OPTIONS
  | DELETE
  | HEAD
  | CONNECT
  | PUT
  | TRACE
  | PATCH
  deriving DecidableEq, Repr

/-- The members of `HttpHandlerFactory` the routing and the endpoint update use:
the published endpoint table (`none` for the null pointer) and the status
monitor, told apart by a number. -/
structure HttpHandlerFactory where
  endpoints_ : Option EndpointsMap
  monitor_ : Nat
  deriving DecidableEq

/-- The handler `onRequest` creates: `new MonHandler(monitor_)` or
`new TileHandler(render_manager_, data_manager_, endpoints, cacher_.get())`, of
which the endpoint table is kept. -/
inductive RequestHandler where
  | MonHandler (monitor : Nat)
  | TileHandler (endpoints : Option EndpointsMap)
  deriving DecidableEq

/-- `HttpHandlerFactory::onRequest`; `method` is `msg->getMethod()` (empty for a
method proxygen does not name) and `path` is `msg->getPath()`. -/
def HttpHandlerFactory.onRequest (f : HttpHandlerFactory) (method : Option HTTPMethod)
    (path : String) : RequestHandler :=
  if method = some HTTPMethod.GET ∧ path = "/mon" then
    RequestHandler.MonHandler f.monitor_
  else
    RequestHandler.TileHandler f.endpoints_

/-- `HttpHandlerFactory::UpdateConfig`: the returned bool and the factory
afterwards. The bool is `none` when a `Json::LogicError` leaves the function
(the non-const `operator[]` raises for the same values as the const one); the
exception is raised before `std::atomic_store` is reached, so the factory is
then as it was. -/
def HttpHandlerFactory.UpdateConfig (f : HttpHandlerFactory) (update : Json) :
    Option Bool × HttpHandlerFactory :=
  match update.get "endpoints" with
  | none => (none, f)
  | some jendpoints =>
    match ParseEndpoints jendpoints with
    | none => (none, f)
    | some none => (some false, f)
    | some (some endpoints_map) => (some true, { f with endpoints_ := some endpoints_map })

/-! ## Constructor of the render manager -/

namespace RenderManager

/-- The worker-list invariant of the update protocol over the pool `W`: with the
guard free the two worker lists, the pending list and the queue of
`UpdateWorker` closures are empty; after a `Json::LogicError` left `ParseStyles`
the guard stays set and no closure is queued; while an update is in flight the
workers still to update followed by the reverse of the updated ones are the
pool, and the one queued closure is on the last worker still to update. -/
def WorkerListsInv (W : List Worker) (s : RenderManager) : Prop :=
  s.render_pool_.workers = W
  ∧ (s.updating_ = false →
      s.workers_to_update_ = [] ∧ s.updated_workers_ = [] ∧ s.pending_update_ = []
        ∧ s.render_pool_.inbox = [] ∧ s.threw_ = false)
  ∧ (s.threw_ = true → s.updating_ = true ∧ s.render_pool_.inbox = [])
  ∧ (s.updating_ = true → s.threw_ = false →
      s.workers_to_update_.map some ++ s.updated_workers_.reverse = W.map some
        ∧ s.render_pool_.inbox = [s.workers_to_update_.getLast?]
        ∧ (s.workers_to_update_ = [] → W = []))

/-- The states of the manager over the pool `W` that the calls into it reach
from a state with the guard free: `PostStyleUpdate`, the pool running a queued
`UpdateWorker` closure with any prepare outcome, the end of the constructor,
`Render` and `MakeSubtile`. -/
inductive Reachable (W : List Worker) : RenderManager → Prop where
  | init (s : RenderManager) (hW : s.render_pool_.workers = W) (hfree : s.updating_ = false)
      (hto : s.workers_to_update_ = []) (hup : s.updated_workers_ = [])
      (hpend : s.pending_update_ = []) (hinbox : s.render_pool_.inbox = [])
      (hthrew : s.threw_ = false) : Reachable W s
  | post (fuel : Nat) (X : Json) (s s' : RenderManager) (h : Reachable W s)
      (hstep : PostStyleUpdate (fuel + 3) X s = some s') : Reachable W s'
  | pool (US : Worker → List StyleInfo → Bool) (fuel : Nat) (s s' : RenderManager)
      (h : Reachable W s) (hstep : PoolStep US (fuel + 4) s = some s') : Reachable W s'
  | inited (fuel : Nat) (s s' : RenderManager) (h : Reachable W s)
      (hstep : TryProcessStyleUpdate (fuel + 3) { s with inited_ := true } = some s') :
      Reachable W s'
  | render (s : RenderManager) (request : RenderRequest) (success_callback error_callback : Nat)
      (h : Reachable W s) :
      Reachable W (s.Render request success_callback error_callback).2
  | subtile (Valid : TileId → Bool) (s : RenderManager) (request : SubtileRequest)
      (success_callback error_callback : Nat) (h : Reachable W s) :
      Reachable W (s.MakeSubtile Valid request success_callback error_callback).2

/-- The manager over the pool `[1, 2, 3]` after `sampleSnapshot` was posted and
the prepare on worker 3 succeeded. -/
def sampleInFlight : RenderManager :=
  advanced (started (idleManager [1, 2, 3] ["s1"]) sampleSnapshot sampleStyles)

end RenderManager

end MapsExpress

/-! ## The update protocol: auxiliary facts -/

namespace MapsExpress

namespace RenderManager

theorem TryProcessStyleUpdate_no_snapshot (fuel : Nat) (s : RenderManager)
    (h : s.styles_update_ = none) : TryProcessStyleUpdate (fuel + 1) s = some s := by
  simp [TryProcessStyleUpdate, h]

theorem FinishUpdate_no_snapshot (fuel : Nat) (s : RenderManager)
    (h : s.styles_update_ = none) : FinishUpdate (fuel + 2) s = some (released s) := by
  simp [FinishUpdate, TryProcessStyleUpdate, released, h]

theorem foldl_ExecuteOnWorker (a : Action) (ha : a ≠ Action.UpdateWorker)
    (l : List (Option Worker)) (s : RenderManager) :
    l.foldl (fun m rw => m.ExecuteOnWorker a rw) s
      = withControl s (l.map (fun rw => { action := a, target := rw })) := by
  induction l generalizing s with
  | nil => simp [withControl]
  | cons x xs ih =>
    simp only [List.foldl_cons, ih, List.map_cons]
    simp [withControl, ExecuteOnWorker, ha]

theorem ExecuteOnUpdated_eq (a : Action) (ha : a ≠ Action.UpdateWorker) (s : RenderManager) :
    s.ExecuteOnUpdated a
      = withControl s (s.updated_workers_.map (fun rw => { action := a, target := rw })) := by
  simp [ExecuteOnUpdated, foldl_ExecuteOnWorker a ha]

theorem PoolRun_idle (US : Worker → List StyleInfo → Bool) (fuel n : Nat) (s : RenderManager)
    (h : s.render_pool_.inbox = []) : PoolRun US fuel n s = some s := by
  induction n with
  | zero => rfl
  | succ n ih => simp [PoolRun, PoolStep, h, ih]

theorem PoolStep_prepared (US : Worker → List StyleInfo → Bool) (fuel : Nat)
    (q : List Worker) (w : Worker) (s : RenderManager) (hq : q ≠ [])
    (hw : s.workers_to_update_ = q ++ [w]) (hi : s.render_pool_.inbox = [some w])
    (hok : US w s.pending_update_ = true) :
    PoolStep US fuel s = some (advanced s) := by
  simp [PoolStep, hi, UpdateWorker, hok, hw, advanced, hq]

theorem PoolRun_all_prepared (US : Worker → List StyleInfo → Bool) (fuel : Nat)
    (pre : List Worker) (w : Worker) (s : RenderManager) (n : Nat)
    (hw : s.workers_to_update_ = pre ++ [w]) (hi : s.render_pool_.inbox = [some w])
    (hs : s.styles_update_ = none)
    (hok : ∀ x ∈ pre ++ [w], US x s.pending_update_ = true) (hn : pre.length + 1 ≤ n) :
    PoolRun US (fuel + 2) n s = some (committed s) := by
  induction pre using List.reverseRecOn generalizing w s n with
  | nil =>
    obtain ⟨m, rfl⟩ : ∃ m, n = m + 1 := ⟨n - 1, by omega⟩
    have hw' : US w s.pending_update_ = true := hok w (by simp)
    simp at hw
    simp [PoolRun, PoolStep, hi, UpdateWorker, hw', hw, ExecuteOnUpdated_eq, withControl,
      FinishUpdate_no_snapshot, hs, released, PoolRun_idle, committed, styleNamesOf, updateCalls, callsOn]
  | append_singleton l a ih =>
    obtain ⟨m, rfl⟩ : ∃ m, n = m + 1 := ⟨n - 1, by omega⟩
    have hw' : US w s.pending_update_ = true := hok w (by simp)
    have key := ih a (advanced s) m (by simp [advanced, ExecuteOnWorker, hw])
      (by simp [advanced, ExecuteOnWorker, hw]) (by simp [advanced, ExecuteOnWorker, hs])
      (by
        intro x hx
        have := hok x (by simp at hx ⊢; tauto)
        simpa [advanced, ExecuteOnWorker] using this)
      (by simp at hn; omega)
    simp only [PoolRun, PoolStep_prepared US (fuel + 2) (l ++ [a]) w s (by simp) hw hi hw', Option.some_bind, key]
    simp [committed, advanced, ExecuteOnWorker, hw, updateCalls, callsOn,
      List.dropLast_append_of_ne_nil]

theorem PoolRun_first_failed (US : Worker → List StyleInfo → Bool) (fuel : Nat)
    (v : Worker) (s : RenderManager) (n : Nat)
    (hi : s.render_pool_.inbox = [some v]) (hs : s.styles_update_ = none)
    (hv : US v s.pending_update_ = false) (hn : 1 ≤ n) :
    PoolRun US (fuel + 2) n s = some (cancelled s [] []) := by
  obtain ⟨m, rfl⟩ : ∃ m, n = m + 1 := ⟨n - 1, by omega⟩
  simp [PoolRun, PoolStep, hi, UpdateWorker, hv, ExecuteOnUpdated_eq, withControl,
    FinishUpdate_no_snapshot, hs, released, PoolRun_idle, cancelled, updateCalls, callsOn]

theorem advanced_workers (q : List Worker) (w : Worker) (s : RenderManager)
    (hw : s.workers_to_update_ = q ++ [w]) : (advanced s).workers_to_update_ = q := by
  simp only [advanced, ExecuteOnWorker, hw, List.dropLast_concat]

theorem advanced_inbox (q : List Worker) (a w : Worker) (s : RenderManager)
    (hw : s.workers_to_update_ = q ++ [a] ++ [w]) :
    (advanced s).render_pool_.inbox = [some a] := by
  simp only [advanced, ExecuteOnWorker, hw, List.dropLast_concat, List.getLast?_concat]
  simp

theorem advanced_control (q : List Worker) (a w : Worker) (s : RenderManager)
    (hw : s.workers_to_update_ = q ++ [a] ++ [w]) :
    (advanced s).render_pool_.control = s.render_pool_.control ++ updateCalls [a] := by
  simp only [advanced, ExecuteOnWorker, hw, List.dropLast_concat, List.getLast?_concat]
  simp [updateCalls]

theorem advanced_updated (q : List Worker) (w : Worker) (s : RenderManager)
    (hw : s.workers_to_update_ = q ++ [w]) :
    (advanced s).updated_workers_ = s.updated_workers_ ++ [some w] := by
  simp only [advanced, ExecuteOnWorker, hw, List.getLast?_concat]

theorem PoolRun_later_failed (US : Worker → List StyleInfo → Bool) (fuel : Nat)
    (mid pre : List Worker) (v w : Worker) (s : RenderManager) (n : Nat)
    (hw : s.workers_to_update_ = pre ++ [v] ++ mid ++ [w])
    (hi : s.render_pool_.inbox = [some w])
    (hs : s.styles_update_ = none)
    (hv : US v s.pending_update_ = false)
    (hok : ∀ x ∈ mid ++ [w], US x s.pending_update_ = true) (hn : mid.length + 2 ≤ n) :
    PoolRun US (fuel + 2) n s = some (cancelled s (mid.reverse ++ [v]) (w :: mid.reverse)) := by
  induction mid using List.reverseRecOn generalizing w s n with
  | nil =>
    obtain ⟨m, rfl⟩ : ∃ m, n = m + 1 := ⟨n - 1, by omega⟩
    have hw' : US w s.pending_update_ = true := hok w (by simp)
    have hw2 : s.workers_to_update_ = pre ++ [v] ++ [w] := by simpa using hw
    have key := PoolRun_first_failed US fuel v (advanced s) m
      (advanced_inbox pre v w s hw2) (by simp [advanced, ExecuteOnWorker, hs])
      (by simpa [advanced, ExecuteOnWorker] using hv) (by simp at hn; omega)
    simp only [PoolRun, PoolStep_prepared US (fuel + 2) (pre ++ [v]) w s (by simp) hw2 hi hw',
      Option.some_bind, key]
    simp only [cancelled, advanced_control pre v w s hw2, advanced_updated _ w s hw2]
    simp [advanced, ExecuteOnWorker, updateCalls, callsOn]
  | append_singleton l a ih =>
    obtain ⟨m, rfl⟩ : ∃ m, n = m + 1 := ⟨n - 1, by omega⟩
    have hw' : US w s.pending_update_ = true := hok w (by simp)
    have hw2 : s.workers_to_update_ = (pre ++ [v] ++ l) ++ [a] ++ [w] := by
      rw [hw]; simp
    have key := ih a (advanced s) m (advanced_workers _ w s hw2)
      (advanced_inbox _ a w s hw2) (by simp [advanced, ExecuteOnWorker, hs])
      (by simpa [advanced, ExecuteOnWorker] using hv)
      (by
        intro x hx
        have := hok x (by simp at hx ⊢; tauto)
        simpa [advanced, ExecuteOnWorker] using this)
      (by simp at hn ⊢; omega)
    simp only [PoolRun, PoolStep_prepared US (fuel + 2) (pre ++ [v] ++ l ++ [a]) w s (by simp) hw2 hi hw',
      Option.some_bind, key]
    simp only [cancelled, advanced_control _ a w s hw2, advanced_updated _ w s hw2]
    simp [advanced, ExecuteOnWorker, updateCalls, callsOn]

theorem PostStyleUpdate_started (fuel : Nat) (s : RenderManager) (X : Json) (L : List StyleInfo)
    (hinit : s.inited_ = true) (hfree : s.updating_ = false)
    (hparse : ParseStyles X s.pending_update_ = (some true, L)) :
    PostStyleUpdate (fuel + 1) X s = some (started s X L) := by
  simp [PostStyleUpdate, TryProcessStyleUpdate, hinit, hfree, hparse, started]

theorem exists_last_failure (US : Worker → Bool) (W : List Worker)
    (h : ∃ w ∈ W, US w = false) :
    ∃ pre v suf, W = pre ++ [v] ++ suf ∧ US v = false ∧ ∀ x ∈ suf, US x = true := by
  induction W with
  | nil => simp at h
  | cons a W ih =>
    by_cases hW : ∃ w ∈ W, US w = false
    · obtain ⟨pre, v, suf, rfl, hv, hs⟩ := ih hW
      exact ⟨a :: pre, v, suf, by simp, hv, hs⟩
    · refine ⟨[], a, W, by simp, ?_, ?_⟩
      · obtain ⟨w, hw, hf⟩ := h
        rcases List.mem_cons.1 hw with rfl | hw'
        · exact hf
        · exact absurd ⟨w, hw', hf⟩ hW
      · intro x hx
        by_contra hne
        exact hW ⟨x, hx, by simpa using hne⟩

theorem mem_insertName (names : List String) (name x : String) :
    x ∈ insertName names name ↔ x ∈ names ∨ x = name := by
  unfold insertName
  split
  · constructor
    · exact Or.inl
    · rintro (h | rfl)
      · exact h
      · assumption
  · simp

theorem mem_foldl_insertName (L : List StyleInfo) (acc : List String) (x : String) :
    x ∈ L.foldl (fun names info => insertName names info.name) acc
      ↔ x ∈ acc ∨ ∃ info ∈ L, info.name = x := by
  induction L generalizing acc with
  | nil => simp
  | cons a L ih =>
    rw [List.foldl_cons, ih, mem_insertName]
    simp only [List.mem_cons, exists_eq_or_imp]
    constructor
    · rintro ((h | h) | h)
      · exact Or.inl h
      · exact Or.inr (Or.inl h.symm)
      · exact Or.inr (Or.inr h)
    · rintro (h | h | h)
      · exact Or.inl (Or.inl h)
      · exact Or.inl (Or.inr h.symm)
      · exact Or.inr h

theorem nodup_foldl_insertName (L : List StyleInfo) (acc : List String) (h : acc.Nodup) :
    (L.foldl (fun names info => insertName names info.name) acc).Nodup := by
  induction L generalizing acc with
  | nil => simpa
  | cons a L ih =>
    simp only [List.foldl_cons]
    apply ih
    unfold insertName
    split
    · exact h
    · rename_i hn
      exact List.Nodup.append h (by simp) (by simpa using hn)

theorem cancelled_started_control (s : RenderManager) (X : Json) (L : List StyleInfo)
    (asked prepared : List Worker) :
    (cancelled (started s X L) asked prepared).render_pool_.control
      = s.render_pool_.control ++
          (callsOn Action.UpdateWorker [s.render_pool_.workers.getLast?] ++ updateCalls asked
            ++ callsOn Action.CancelUpdate (s.updated_workers_ ++ prepared.map some)) := by
  simp [cancelled, started, ExecuteOnWorker, callsOn]

theorem action_of_mem_callsOn (a : Action) (ws : List (Option Worker)) (d : Dispatch)
    (h : d ∈ callsOn a ws) : d.action = a := by
  simp only [callsOn, List.mem_map] at h
  obtain ⟨_, _, rfl⟩ := h
  rfl

theorem action_of_mem_updateCalls (ws : List Worker) (d : Dispatch)
    (h : d ∈ updateCalls ws) : d.action = Action.UpdateWorker := by
  simp only [updateCalls, List.mem_map] at h
  obtain ⟨_, _, rfl⟩ := h
  rfl

theorem no_commit_in_cancelled (t : Option Worker) (asked : List Worker)
    (ws : List (Option Worker)) (d : Dispatch)
    (h : d ∈ callsOn Action.UpdateWorker [t] ++ updateCalls asked
            ++ callsOn Action.CancelUpdate ws) :
    d.action ≠ Action.CommitUpdate := by
  simp only [List.mem_append] at h
  rcases h with (h | h) | h
  · rw [action_of_mem_callsOn _ _ _ h]; decide
  · rw [action_of_mem_updateCalls _ _ h]; decide
  · rw [action_of_mem_callsOn _ _ _ h]; decide

theorem PoolRun_partial (US : Worker → List StyleInfo → Bool) (fuel : Nat)
    (suf pre : List Worker) (s : RenderManager) (hpre : pre ≠ [])
    (hw : s.workers_to_update_ = pre ++ suf)
    (hi : s.render_pool_.inbox = [(pre ++ suf).getLast?])
    (hok : ∀ x ∈ suf, US x s.pending_update_ = true) :
    ∃ s' asked, PoolRun US fuel suf.length s = some s'
      ∧ s'.render_pool_.control = s.render_pool_.control ++ updateCalls asked
      ∧ s'.style_names_ = s.style_names_ := by
  induction suf using List.reverseRecOn generalizing s with
  | nil => exact ⟨s, [], rfl, by simp [updateCalls], rfl⟩
  | append_singleton l a ih =>
    have hw2 : s.workers_to_update_ = (pre ++ l) ++ [a] := by rw [hw]; simp
    have hi2 : s.render_pool_.inbox = [some a] := by
      rw [hi, ← List.append_assoc, List.getLast?_concat]
    have ha : US a s.pending_update_ = true := hok a (by simp)
    have hstep := PoolStep_prepared US fuel (pre ++ l) a s (by simp [hpre]) hw2 hi2 ha
    obtain ⟨s', asked, hrun, hc, hn⟩ := ih (advanced s) (advanced_workers _ a s hw2)
      (by
        simp only [advanced, ExecuteOnWorker, hw2, List.dropLast_concat]
        simp)
      (by
        intro x hx
        have := hok x (by simp [hx])
        simpa [advanced, ExecuteOnWorker] using this)
    refine ⟨s', (pre ++ l).getLast?.toList ++ asked, ?_, ?_, ?_⟩
    · rw [List.length_append, List.length_singleton, PoolRun, hstep, Option.some_bind, hrun]
    · rw [hc]
      simp only [advanced, ExecuteOnWorker, hw2, List.dropLast_concat]
      obtain ⟨t, ht⟩ : ∃ t, (pre ++ l).getLast? = some t := by
        cases h : (pre ++ l).getLast? with
        | none => simp [hpre] at h
        | some t => exact ⟨t, rfl⟩
      simp [ht, updateCalls]
    · rw [hn]; rfl

theorem targetsOf_append (a : Action) (s s' : RenderManager) (new : List Dispatch)
    (h : s'.render_pool_.control = s.render_pool_.control ++ new) :
    targetsOf a s' = targetsOf a s
      ++ (new.filter (fun d => decide (d.action = a))).map Dispatch.target := by
  simp [targetsOf, h]

theorem filter_updateCalls_commit (ws : List Worker) :
    (updateCalls ws).filter (fun d => decide (d.action = Action.CommitUpdate)) = [] := by
  simp [updateCalls, List.filter_eq_nil_iff]

theorem filter_callsOn_self (a : Action) (ws : List (Option Worker)) :
    ((callsOn a ws).filter (fun d => decide (d.action = a))).map Dispatch.target = ws := by
  induction ws with
  | nil => rfl
  | cons x xs ih =>
    simp only [callsOn, List.map_cons] at ih ⊢
    simp [List.filter_cons, ih]

theorem count_some_map (x : Worker) (l : List Worker) :
    (l.map some).count (some x) = l.count x := by
  induction l with
  | nil => rfl
  | cons a l ih =>
    simp only [List.map_cons, List.count_cons, ih]
    by_cases h : a = x <;> simp [h]

end RenderManager

end MapsExpress

/-! ## The update protocol: claims -/

namespace MapsExpress

namespace RenderManager

/-- C1. Style update is all-or-nothing on failure: from an idle manager whose
pool has a worker on which the prepare of the parsed snapshot fails, posting
the snapshot and letting the pool run the update to its end hands only
`UpdateWorker` and `CancelUpdate` closures to the workers (no `CommitUpdate`),
and leaves the style-name set as it was, with the guard released. -/
theorem update_rolls_back_on_failed_prepare (US : Worker → List StyleInfo → Bool) (fuel : Nat)
    (s : RenderManager) (X : Json) (L : List StyleInfo)
    (hinit : s.inited_ = true) (hfree : s.updating_ = false)
    (hinbox : s.render_pool_.inbox = [])
    (hparse : ParseStyles X s.pending_update_ = (some true, L))
    (hfail : ∃ w ∈ s.render_pool_.workers, US w L = false) :
    ∃ s' new,
      (PostStyleUpdate (fuel + 2) X s).bind
          (PoolRun US (fuel + 2) s.render_pool_.workers.length) = some s'
        ∧ s'.render_pool_.control = s.render_pool_.control ++ new
        ∧ (∀ d ∈ new, d.action ≠ Action.CommitUpdate)
        ∧ s'.style_names_ = s.style_names_
        ∧ s'.updating_ = false
        ∧ s'.render_pool_.inbox = [] := by
  obtain ⟨pre, v, suf, hW, hv, hsuf⟩ :=
    exists_last_failure (fun w => US w L) s.render_pool_.workers hfail
  rw [PostStyleUpdate_started (fuel + 1) s X L hinit hfree hparse, Option.some_bind]
  rcases List.eq_nil_or_concat suf with rfl | ⟨mid, w, rfl⟩
  · have hW' : s.render_pool_.workers = pre ++ [v] := by simpa using hW
    have key := PoolRun_first_failed US fuel v (started s X L) s.render_pool_.workers.length
      (by simp [started, ExecuteOnWorker, hinbox, hW'])
      (by simp [started, ExecuteOnWorker])
      (by simpa [started, ExecuteOnWorker] using hv)
      (by simp [hW'])
    exact ⟨_, _, key, cancelled_started_control s X L [] [], no_commit_in_cancelled _ _ _,
      rfl, rfl, rfl⟩
  · have hW' : s.render_pool_.workers = pre ++ [v] ++ mid ++ [w] := by
      rw [hW]; simp
    have key := PoolRun_later_failed US fuel mid pre v w (started s X L)
      s.render_pool_.workers.length
      (by simp only [started, ExecuteOnWorker]; exact hW')
      (by
        simp only [started, ExecuteOnWorker, hinbox, hW', List.getLast?_concat]
        simp)
      (by simp [started, ExecuteOnWorker])
      (by simpa [started, ExecuteOnWorker] using hv)
      (by
        intro x hx
        have := hsuf x (by simpa using hx)
        simpa [started, ExecuteOnWorker] using this)
      (by simp [hW'])
    exact ⟨_, _, key, cancelled_started_control s X L _ _, no_commit_in_cancelled _ _ _,
      rfl, rfl, rfl⟩

theorem update_rolls_back_on_failed_prepare_witness :
    ∃ s' new,
      (PostStyleUpdate 2 sampleSnapshot (idleManager [1, 2, 3] ["s1"])).bind
          (PoolRun failsOnTwo 2 3) = some s'
        ∧ s'.render_pool_.control = [] ++ new
        ∧ (∀ d ∈ new, d.action ≠ Action.CommitUpdate)
        ∧ s'.style_names_ = ["s1"]
        ∧ s'.updating_ = false
        ∧ s'.render_pool_.inbox = [] :=
  update_rolls_back_on_failed_prepare failsOnTwo 0 (idleManager [1, 2, 3] ["s1"])
    sampleSnapshot sampleStyles rfl rfl rfl (by decide) ⟨2, by decide, by decide⟩

/-- C2. Successful style update: from an idle manager with a non-empty pool on
which every prepare of the parsed snapshot succeeds, posting the snapshot and
letting the pool run the update to its end hands `UpdateWorker` to the workers
from the last to the first and then `CommitUpdate` to each worker of the pool
once; no `CommitUpdate` is handed out while fewer than all prepares have
run; the published style-name set holds exactly the names of the parsed list;
the pending state is empty and the guard is released. -/
theorem update_commits_after_all_prepared (US : Worker → List StyleInfo → Bool) (fuel : Nat)
    (s : RenderManager) (X : Json) (L : List StyleInfo)
    (hinit : s.inited_ = true) (hfree : s.updating_ = false)
    (hinbox : s.render_pool_.inbox = []) (hupd : s.updated_workers_ = [])
    (hparse : ParseStyles X s.pending_update_ = (some true, L))
    (hne : s.render_pool_.workers ≠ [])
    (hok : ∀ w ∈ s.render_pool_.workers, US w L = true) :
    ∃ s',
      (PostStyleUpdate (fuel + 2) X s).bind
          (PoolRun US (fuel + 2) s.render_pool_.workers.length) = some s'
        ∧ s'.render_pool_.control = s.render_pool_.control
            ++ updateCalls s.render_pool_.workers.reverse
            ++ callsOn Action.CommitUpdate (s.render_pool_.workers.reverse.map some)
        ∧ (∀ w, (targetsOf Action.CommitUpdate s').count (some w)
            = (targetsOf Action.CommitUpdate s).count (some w) + s.render_pool_.workers.count w)
        ∧ (∀ k, k < s.render_pool_.workers.length →
            ∃ sk, (PostStyleUpdate (fuel + 2) X s).bind (PoolRun US (fuel + 2) k) = some sk
              ∧ targetsOf Action.CommitUpdate sk = targetsOf Action.CommitUpdate s
              ∧ sk.style_names_ = s.style_names_)
        ∧ (∀ x, x ∈ s'.style_names_ ↔ ∃ info ∈ L, info.name = x)
        ∧ s'.style_names_.Nodup
        ∧ s'.pending_update_ = [] ∧ s'.workers_to_update_ = [] ∧ s'.updated_workers_ = []
        ∧ s'.styles_update_ = none ∧ s'.updating_ = false := by
  rw [PostStyleUpdate_started (fuel + 1) s X L hinit hfree hparse]
  simp only [Option.some_bind]
  rcases List.eq_nil_or_concat s.render_pool_.workers with hnil | ⟨pre, w, hW⟩
  · exact absurd hnil hne
  have hW' : s.render_pool_.workers = pre ++ [w] := by rw [hW]; simp
  have key := PoolRun_all_prepared US fuel pre w (started s X L) s.render_pool_.workers.length
    (by simp only [started, ExecuteOnWorker]; exact hW')
    (by
      simp only [started, ExecuteOnWorker, hinbox, hW', List.getLast?_concat]
      simp)
    (by simp [started, ExecuteOnWorker])
    (by
      intro x hx
      have := hok x (by rw [hW']; exact hx)
      simpa [started, ExecuteOnWorker] using this)
    (by simp [hW'])
  have hcontrol : (committed (started s X L)).render_pool_.control = s.render_pool_.control
      ++ updateCalls s.render_pool_.workers.reverse
      ++ callsOn Action.CommitUpdate (s.render_pool_.workers.reverse.map some) := by
    simp only [committed, started, ExecuteOnWorker, hupd, hW', List.getLast?_concat,
      List.dropLast_concat]
    simp [updateCalls]
  refine ⟨_, key, hcontrol, ?_, ?_, ?_, ?_, rfl, rfl, rfl, rfl, rfl⟩
  · intro x
    rw [targetsOf_append Action.CommitUpdate s _ _ (by rw [hcontrol, List.append_assoc])]
    rw [List.filter_append, filter_updateCalls_commit, List.nil_append, filter_callsOn_self,
      List.count_append]
    congr 1
    rw [count_some_map, List.count_reverse]
  · intro k hk
    have hsplit : s.render_pool_.workers
        = s.render_pool_.workers.take (s.render_pool_.workers.length - k)
          ++ s.render_pool_.workers.drop (s.render_pool_.workers.length - k) :=
      (List.take_append_drop _ _).symm
    obtain ⟨sk, asked, hrun, hc, hn⟩ := PoolRun_partial US (fuel + 2)
      (s.render_pool_.workers.drop (s.render_pool_.workers.length - k))
      (s.render_pool_.workers.take (s.render_pool_.workers.length - k))
      (started s X L)
      (by
        intro h
        have := congrArg List.length h
        simp at this
        omega)
      (by simp only [started, ExecuteOnWorker]; exact hsplit)
      (by
        rw [← hsplit]
        simp [started, ExecuteOnWorker, hinbox])
      (by
        intro x hx
        have := hok x (List.mem_of_mem_drop hx)
        simpa [started, ExecuteOnWorker] using this)
    have hlen : (s.render_pool_.workers.drop (s.render_pool_.workers.length - k)).length = k := by
      simp; omega
    rw [hlen] at hrun
    refine ⟨sk, hrun, ?_, by rw [hn]; rfl⟩
    have hc' : sk.render_pool_.control = s.render_pool_.control
        ++ (callsOn Action.UpdateWorker [s.render_pool_.workers.getLast?] ++ updateCalls asked) := by
      rw [hc]; simp [started, ExecuteOnWorker, callsOn]
    rw [targetsOf_append Action.CommitUpdate s sk _ hc']
    simp [callsOn, updateCalls, List.filter_eq_nil_iff]
  · intro x
    have := mem_foldl_insertName L [] x
    simpa [committed, started, ExecuteOnWorker, styleNamesOf] using this
  · exact nodup_foldl_insertName L [] List.nodup_nil

theorem update_commits_after_all_prepared_witness :
    ∃ s',
      (PostStyleUpdate 2 sampleSnapshot (idleManager [1, 2, 3] ["s1"])).bind
          (PoolRun alwaysPrepared 2 3) = some s'
        ∧ s'.render_pool_.control = [] ++ updateCalls [3, 2, 1]
            ++ callsOn Action.CommitUpdate [some 3, some 2, some 1]
        ∧ (∀ w, (targetsOf Action.CommitUpdate s').count (some w)
            = (targetsOf Action.CommitUpdate (idleManager [1, 2, 3] ["s1"])).count (some w)
              + [1, 2, 3].count w)
        ∧ (∀ k, k < 3 →
            ∃ sk, (PostStyleUpdate 2 sampleSnapshot (idleManager [1, 2, 3] ["s1"])).bind
                (PoolRun alwaysPrepared 2 k) = some sk
              ∧ targetsOf Action.CommitUpdate sk
                  = targetsOf Action.CommitUpdate (idleManager [1, 2, 3] ["s1"])
              ∧ sk.style_names_ = ["s1"])
        ∧ (∀ x, x ∈ s'.style_names_ ↔ ∃ info ∈ sampleStyles, info.name = x)
        ∧ s'.style_names_.Nodup
        ∧ s'.pending_update_ = [] ∧ s'.workers_to_update_ = [] ∧ s'.updated_workers_ = []
        ∧ s'.styles_update_ = none ∧ s'.updating_ = false :=
  update_commits_after_all_prepared alwaysPrepared 0 (idleManager [1, 2, 3] ["s1"])
    sampleSnapshot sampleStyles rfl rfl rfl rfl (by decide) (by decide) (fun _ _ => rfl)

end RenderManager

end MapsExpress

/-! ## Admission and the empty pool: claims -/

namespace MapsExpress

namespace RenderManager

/-- C3. Empty pool: draining a snapshot that parses, on a pool without
workers, does not skip the update. The drain hands `UpdateWorker` to the result
of `back()` on the empty worker list, keeps `updating_` set and the parsed list
pending, so a later snapshot is stored but never drained. -/
theorem empty_pool_drain_keeps_guard :
    ∃ s', PostStyleUpdate 3 sampleSnapshot (idleManager [] ["s1"]) = some s'
      ∧ s'.render_pool_.control = [{ action := Action.UpdateWorker, target := none }]
      ∧ s'.updating_ = true
      ∧ s'.pending_update_ = sampleStyles
      ∧ PoolRun alwaysPrepared 3 5 s' = some s'
      ∧ ∃ s'', PostStyleUpdate 3 sampleSnapshot s' = some s''
          ∧ s''.updating_ = true ∧ s''.parsed_.length = 1
          ∧ s''.styles_update_.isSome = true ∧ s''.style_names_ = ["s1"] :=
  ⟨_, rfl, rfl, rfl, rfl, rfl, _, rfl, rfl, rfl, rfl, rfl⟩

/-- C4. Render admission: `Render` returns the task built from the two
callbacks; when the style name is not in the style-name set the manager calls
`NotifyError` on that task once and posts nothing; when it is in the set the
manager posts one task carrying the request and calls `NotifyError` on none. -/
theorem Render_admission (s : RenderManager) (request : RenderRequest)
    (success_callback error_callback : Nat) :
    (s.Render request success_callback error_callback).1
        = { success_callback := success_callback, error_callback := error_callback, flag := true }
      ∧ (request.style_name ∉ s.style_names_ →
          (s.Render request success_callback error_callback).2.notified_
              = s.notified_ ++ [(s.Render request success_callback error_callback).1]
            ∧ (s.Render request success_callback error_callback).2.render_pool_.tasks
              = s.render_pool_.tasks)
      ∧ (request.style_name ∈ s.style_names_ →
          (s.Render request success_callback error_callback).2.render_pool_.tasks
              = s.render_pool_.tasks
                ++ [{ task := (s.Render request success_callback error_callback).1,
                      request := Sum.inl request }]
            ∧ (s.Render request success_callback error_callback).2.notified_ = s.notified_) := by
  refine ⟨?_, ?_, ?_⟩
  · unfold Render; split <;> rfl
  · intro h
    simp [Render, has_style, h]
  · intro h
    simp [Render, has_style, h, PostTask]

theorem Render_admission_witness :
    ((idleManager [1] ["s1"]).Render { style_name := "s9", tile_id := ⟨0, 0, 0⟩ } 7 8).2.notified_
        = [] ++ [((idleManager [1] ["s1"]).Render
            { style_name := "s9", tile_id := ⟨0, 0, 0⟩ } 7 8).1]
      ∧ ((idleManager [1] ["s1"]).Render
            { style_name := "s9", tile_id := ⟨0, 0, 0⟩ } 7 8).2.render_pool_.tasks = []
      ∧ ((idleManager [1] ["s1"]).Render
            { style_name := "s1", tile_id := ⟨0, 0, 0⟩ } 7 8).2.render_pool_.tasks
          = [] ++ [{ task := ((idleManager [1] ["s1"]).Render
                        { style_name := "s1", tile_id := ⟨0, 0, 0⟩ } 7 8).1,
                     request := Sum.inl { style_name := "s1", tile_id := ⟨0, 0, 0⟩ } }]
      ∧ ((idleManager [1] ["s1"]).Render
            { style_name := "s1", tile_id := ⟨0, 0, 0⟩ } 7 8).2.notified_ = [] :=
  ⟨((Render_admission (idleManager [1] ["s1"])
        { style_name := "s9", tile_id := ⟨0, 0, 0⟩ } 7 8).2.1 (by decide)).1,
   ((Render_admission (idleManager [1] ["s1"])
        { style_name := "s9", tile_id := ⟨0, 0, 0⟩ } 7 8).2.1 (by decide)).2,
   ((Render_admission (idleManager [1] ["s1"])
        { style_name := "s1", tile_id := ⟨0, 0, 0⟩ } 7 8).2.2 (by decide)).1,
   ((Render_admission (idleManager [1] ["s1"])
        { style_name := "s1", tile_id := ⟨0, 0, 0⟩ } 7 8).2.2 (by decide)).2⟩

/-- C5. Subtile admission: `MakeSubtile` calls `NotifyError` once on the
returned task and posts nothing exactly when the source tile id or the target
tile id is invalid; when both are valid it posts one task carrying the request
and calls `NotifyError` on none; the style-name set plays no part. -/
theorem MakeSubtile_admission (Valid : TileId → Bool) (s : RenderManager)
    (request : SubtileRequest) (success_callback error_callback : Nat) :
    (((s.MakeSubtile Valid request success_callback error_callback).2.notified_
          = s.notified_ ++ [(s.MakeSubtile Valid request success_callback error_callback).1]
        ∧ (s.MakeSubtile Valid request success_callback error_callback).2.render_pool_.tasks
          = s.render_pool_.tasks)
        ↔ (Valid request.mvt_tile_id = false ∨ Valid request.tile_id = false))
      ∧ ((Valid request.mvt_tile_id = true ∧ Valid request.tile_id = true) →
          (s.MakeSubtile Valid request success_callback error_callback).2.render_pool_.tasks
              = s.render_pool_.tasks
                ++ [{ task := (s.MakeSubtile Valid request success_callback error_callback).1,
                      request := Sum.inr request }]
            ∧ (s.MakeSubtile Valid request success_callback error_callback).2.notified_
              = s.notified_)
      ∧ (∀ names : List String,
          ({ s with style_names_ := names }.MakeSubtile Valid request
              success_callback error_callback)
            = ((s.MakeSubtile Valid request success_callback error_callback).1,
               { (s.MakeSubtile Valid request success_callback error_callback).2 with
                 style_names_ := names })) := by
  refine ⟨?_, ?_, ?_⟩
  · constructor
    · intro h
      by_contra hv
      have hv' : Valid request.mvt_tile_id = true ∧ Valid request.tile_id = true := by
        simpa using hv
      have h1 := h.1
      simp [MakeSubtile, hv'.1, hv'.2, PostTask] at h1
    · intro hv
      have : (Valid request.mvt_tile_id && Valid request.tile_id) = false := by
        rcases hv with h | h <;> simp [h]
      simp [MakeSubtile, this]
  · rintro ⟨h1, h2⟩
    simp [MakeSubtile, h1, h2, PostTask]
  · intro names
    unfold MakeSubtile
    split <;> rfl

theorem MakeSubtile_admission_witness :
    ((idleManager [1] ["s1"]).MakeSubtile zoomAtMostTwenty
          { mvt_tile_id := ⟨0, 0, 1⟩, tile_id := ⟨0, 0, 2⟩ } 7 8).2.render_pool_.tasks
        = [] ++ [{ task := ((idleManager [1] ["s1"]).MakeSubtile zoomAtMostTwenty
                      { mvt_tile_id := ⟨0, 0, 1⟩, tile_id := ⟨0, 0, 2⟩ } 7 8).1,
                   request := Sum.inr { mvt_tile_id := ⟨0, 0, 1⟩, tile_id := ⟨0, 0, 2⟩ } }]
      ∧ ((idleManager [1] ["s1"]).MakeSubtile zoomAtMostTwenty
          { mvt_tile_id := ⟨0, 0, 1⟩, tile_id := ⟨0, 0, 2⟩ } 7 8).2.notified_ = [] :=
  (MakeSubtile_admission zoomAtMostTwenty (idleManager [1] ["s1"])
      { mvt_tile_id := ⟨0, 0, 1⟩, tile_id := ⟨0, 0, 2⟩ } 7 8).2.1 ⟨by decide, by decide⟩

end RenderManager

end MapsExpress

/-! ## The endpoint table: auxiliary facts -/

namespace MapsExpress

theorem get_of_IsEntry (e : Json) (h : IsEntry e = true) (key : String) :
    e.get key = some ((e.get key).getD Json.null) := by
  cases e <;> simp_all [IsEntry, Json.get, Json.isObject, Json.isNull]

theorem ParseParamsMetatile_isSome (e : Json) (h : IsEntry e = true) (p : EndpointParams) :
    ∃ q, ParseParamsMetatile e p = some q := by
  unfold ParseParamsMetatile
  rw [get_of_IsEntry e h "metatile_size", get_of_IsEntry e h "metatile_height",
    get_of_IsEntry e h "metatile_width"]
  simp only [Option.bind_eq_bind, Option.some_bind]
  split
  · split
    · split <;> exact ⟨_, rfl⟩
    · exact ⟨_, rfl⟩
  · split <;> exact ⟨_, rfl⟩

theorem ParseParams_of_IsEntry (e : Json) (h : IsEntry e = true) :
    ParseParams e =
      match ParseParamsType e (entryType e) (entryBase e) with
      | none => none
      | some none => some none
      | some (some p) => (ParseParamsMetatile e p).map some := by
  unfold ParseParams
  rw [get_of_IsEntry e h "minzoom", get_of_IsEntry e h "maxzoom",
    get_of_IsEntry e h "data_zoom_offset", get_of_IsEntry e h "data_provider",
    get_of_IsEntry e h "style", get_of_IsEntry e h "allow_layers_query",
    get_of_IsEntry e h "type"]
  simp only [Option.bind_eq_bind, Option.some_bind]
  show (ParseParamsType e (entryType e) (entryBase e)).bind _ = _
  cases ParseParamsType e (entryType e) (entryBase e) with
  | none => rfl
  | some r => cases r <;> rfl

theorem entryBase_provider (e : Json) : (entryBase e).provider_name = entryProvider e := rfl

theorem entryBase_style (e : Json) : (entryBase e).style_name = entryStyle e := rfl

theorem isEmpty_eq_false_iff (s : String) : s.isEmpty = false ↔ s ≠ "" := by
  rw [Bool.eq_false_iff, ne_eq, ne_eq, String.isEmpty_iff]

theorem ParseParamsType_valid (e : Json) (h : IsEntry e = true) (hv : ValidEntry e = true) :
    ∃ p, ParseParamsType e (entryType e) (entryBase e) = some (some p)
      ∧ p.provider_name = entryProvider e ∧ p.style_name = entryStyle e := by
  unfold ParseParamsType
  rw [get_of_IsEntry e h "allow_utfgrid", get_of_IsEntry e h "utfgrid_key",
    get_of_IsEntry e h "filter_map"]
  simp only [Option.bind_eq_bind, Option.some_bind]
  simp only [ValidEntry, decide_eq_true_eq] at hv
  by_cases h1 : entryType e = "static"
  · have hp : entryProvider e ≠ "" := by
      rcases hv with ⟨_, hp⟩ | ⟨hr, _⟩
      · exact hp
      · rw [h1] at hr; exact absurd hr (by decide)
    rw [if_pos h1]
    split
    · rename_i hc
      exact absurd ((String.isEmpty_iff _).1 hc) hp
    · exact ⟨_, rfl, rfl, rfl⟩
  by_cases h2 : entryType e = "render"
  · have hs : entryStyle e ≠ "" := by
      rcases hv with ⟨ht, _⟩ | ⟨_, hs⟩
      · rw [h2] at ht; rcases ht with ht | ht <;> exact absurd ht (by decide)
      · exact hs
    rw [if_neg h1, if_pos h2]
    split
    · rename_i hc
      exact absurd ((String.isEmpty_iff _).1 hc) hs
    · exact ⟨_, rfl, rfl, rfl⟩
  by_cases h3 : entryType e = "mvt"
  · have hp : entryProvider e ≠ "" := by
      rcases hv with ⟨_, hp⟩ | ⟨hr, _⟩
      · exact hp
      · exact absurd hr h2
    rw [if_neg h1, if_neg h2, if_pos h3]
    split
    · rename_i hc
      exact absurd ((String.isEmpty_iff _).1 hc) hp
    · exact ⟨_, rfl, rfl, rfl⟩
  · rcases hv with ⟨ht | ht, _⟩ | ⟨hr, _⟩
    · exact absurd ht h1
    · exact absurd ht h3
    · exact absurd hr h2

theorem ParseParamsType_invalid (e : Json) (h : IsEntry e = true) (hv : ValidEntry e = false) :
    ParseParamsType e (entryType e) (entryBase e) = some none := by
  unfold ParseParamsType
  rw [get_of_IsEntry e h "allow_utfgrid", get_of_IsEntry e h "utfgrid_key",
    get_of_IsEntry e h "filter_map"]
  simp only [Option.bind_eq_bind, Option.some_bind]
  simp only [ValidEntry, decide_eq_false_iff_not, not_or, not_and, not_not] at hv
  by_cases h1 : entryType e = "static"
  · have hp : (entryProvider e).isEmpty = true := (String.isEmpty_iff _).2 (hv.1 (Or.inl h1))
    rw [if_pos h1]
    split
    · rfl
    · rename_i hc; exact absurd hp hc
  by_cases h2 : entryType e = "render"
  · have hs : (entryStyle e).isEmpty = true := (String.isEmpty_iff _).2 (hv.2 h2)
    rw [if_neg h1, if_pos h2]
    split
    · rfl
    · rename_i hc; exact absurd hs hc
  by_cases h3 : entryType e = "mvt"
  · have hp : (entryProvider e).isEmpty = true := (String.isEmpty_iff _).2 (hv.1 (Or.inr h3))
    rw [if_neg h1, if_neg h2, if_pos h3]
    split
    · rfl
    · rename_i hc; exact absurd hp hc
  · rw [if_neg h1, if_neg h2, if_neg h3]

theorem ParseParams_valid (e : Json) (h : IsEntry e = true) (hv : ValidEntry e = true) :
    ∃ p, ParseParams e = some (some p) := by
  obtain ⟨p, hp, _⟩ := ParseParamsType_valid e h hv
  obtain ⟨q, hq⟩ := ParseParamsMetatile_isSome e h p
  exact ⟨q, by rw [ParseParams_of_IsEntry e h, hp]; simp [hq]⟩

theorem ParseParams_invalid (e : Json) (h : IsEntry e = true) (hv : ValidEntry e = false) :
    ParseParams e = some none := by
  rw [ParseParams_of_IsEntry e h, ParseParamsType_invalid e h hv]

theorem ParseEndpoint_entries (es : List Json) (acc : List EndpointParams)
    (h : ∀ e ∈ es, IsEntry e = true) :
    ∃ ps, ParseEndpoint es acc = some (acc ++ ps)
      ∧ List.Forall₂ (fun e p => ParseParams e = some (some p))
          (es.filter ValidEntry) ps := by
  induction es generalizing acc with
  | nil => exact ⟨[], by simp [ParseEndpoint], by simp⟩
  | cons e es ih =>
    have he : IsEntry e = true := h e (by simp)
    have hes : ∀ x ∈ es, IsEntry x = true := fun x hx => h x (by simp [hx])
    cases hv : ValidEntry e with
    | true =>
      obtain ⟨p, hp⟩ := ParseParams_valid e he hv
      obtain ⟨ps, hps, hall⟩ := ih (acc ++ [p]) hes
      refine ⟨p :: ps, ?_, ?_⟩
      · simp only [ParseEndpoint, hp, hps]
        simp
      · rw [List.filter_cons_of_pos hv]
        exact List.Forall₂.cons hp hall
    | false =>
      obtain ⟨ps, hps, hall⟩ := ih acc hes
      refine ⟨ps, ?_, ?_⟩
      · simp only [ParseEndpoint, ParseParams_invalid e he hv, hps]
      · rw [List.filter_cons_of_neg (by simp [hv])]
        exact hall

theorem findEndpoint_append (path k : String) (v : List EndpointParams) (m : EndpointsMap) :
    findEndpoint path (m ++ [(k, v)])
      = match findEndpoint path m with
        | some ps => some ps
        | none => if k = path then some v else none := by
  induction m with
  | nil => simp [findEndpoint]
  | cons kv m ih =>
    obtain ⟨k', v'⟩ := kv
    simp only [List.cons_append, findEndpoint]
    split
    · rfl
    · exact ih

theorem ParseEndpointsLoop_entries (kvs : List (String × Json)) (m : EndpointsMap)
    (h : ∀ kv ∈ kvs, ∀ e ∈ kv.2.elems, IsEntry e = true) :
    ∃ table, ParseEndpointsLoop kvs m = some table
      ∧ ∀ path, findEndpoint path table
          = match findEndpoint path m with
            | some ps => some ps
            | none => (Json.find path kvs).bind (fun v => ParseEndpoint v.elems []) := by
  induction kvs generalizing m with
  | nil =>
    refine ⟨m, rfl, ?_⟩
    intro path
    cases findEndpoint path m <;> rfl
  | cons kv kvs ih =>
    obtain ⟨k, v⟩ := kv
    have hv : ∀ e ∈ v.elems, IsEntry e = true := h (k, v) (by simp)
    have hrest : ∀ kv ∈ kvs, ∀ e ∈ kv.2.elems, IsEntry e = true :=
      fun kv hkv => h kv (by simp [hkv])
    cases hk : findEndpoint k m with
    | some ps0 =>
      obtain ⟨table, ht, hfind⟩ := ih m hrest
      refine ⟨table, by simp [ParseEndpointsLoop, hk, ht], ?_⟩
      intro path
      rw [hfind path]
      cases hp : findEndpoint path m with
      | some ps => rfl
      | none =>
        have hne : k ≠ path := by
          intro heq
          rw [heq, hp] at hk
          exact absurd hk (by simp)
        simp [Json.find, hne]
    | none =>
      obtain ⟨ps, hps, _⟩ := ParseEndpoint_entries v.elems [] hv
      obtain ⟨table, ht, hfind⟩ := ih (m ++ [(k, ps)]) hrest
      refine ⟨table, by simp [ParseEndpointsLoop, hk, hps, ht], ?_⟩
      intro path
      rw [hfind path, findEndpoint_append]
      cases hp : findEndpoint path m with
      | some ps' => rfl
      | none =>
        by_cases hkp : k = path
        · simp [Json.find, hkp, hps]
        · simp [Json.find, hkp]

theorem IsEntry_of_ParseParams (e : Json) (h : ParseParams e ≠ none) : IsEntry e = true := by
  cases e <;> first | rfl | (exfalso; apply h; rfl)

theorem ParseParamsType_fields (e : Json) (t : String) (b q : EndpointParams)
    (h : ParseParamsType e t b = some (some q)) :
    q.provider_name = b.provider_name ∧ q.style_name = b.style_name
      ∧ q.auto_metatile_size = b.auto_metatile_size
      ∧ q.metatile_height = b.metatile_height ∧ q.metatile_width = b.metatile_width
      ∧ (q.type = EndpointType.render → q.allow_utf_grid = true → q.utfgrid_key ≠ "") := by
  unfold ParseParamsType at h
  split at h
  · dsimp only at h
    split at h
    · simp at h
    · simp only [Option.some.injEq] at h
      subst h
      exact ⟨rfl, rfl, rfl, rfl, rfl, fun hr => by simp at hr⟩
  · split at h
    · cases h1 : e.get "allow_utfgrid" with
      | none => simp [h1] at h
      | some a =>
        cases h2 : e.get "utfgrid_key" with
        | none => simp [h1, h2] at h
        | some k =>
          simp only [h1, h2, Option.bind_eq_bind, Option.some_bind] at h
          split at h
          · simp at h
          · simp only [Option.some.injEq] at h
            subst h
            refine ⟨rfl, rfl, rfl, rfl, rfl, fun _ ha => ?_⟩
            dsimp only at ha ⊢
            split at ha
            · simp at ha
            · rename_i hc
              intro hk
              apply hc
              rw [ha, hk]
              rfl
    · split at h
      · dsimp only at h
        split at h
        · simp at h
        · cases h3 : e.get "filter_map" with
          | none => simp [h3] at h
          | some f =>
            simp only [h3, Option.bind_eq_bind, Option.some_bind, Option.some.injEq] at h
            subst h
            exact ⟨rfl, rfl, rfl, rfl, rfl, fun hr => by simp at hr⟩
      · simp at h

theorem ParseParamsMetatile_fields (e : Json) (q p : EndpointParams)
    (h : ParseParamsMetatile e q = some p) :
    p.type = q.type ∧ p.allow_utf_grid = q.allow_utf_grid ∧ p.utfgrid_key = q.utfgrid_key
      ∧ p.provider_name = q.provider_name ∧ p.style_name = q.style_name := by
  unfold ParseParamsMetatile at h
  cases h1 : e.get "metatile_size" with
  | none => simp [h1] at h
  | some ms =>
    simp only [h1, Option.bind_eq_bind, Option.some_bind] at h
    split at h
    · split at h
      · split at h <;> (simp only [Option.some.injEq] at h; subst h; exact ⟨rfl, rfl, rfl, rfl, rfl⟩)
      · simp only [Option.some.injEq] at h; subst h; exact ⟨rfl, rfl, rfl, rfl, rfl⟩
    · split at h
      · simp only [Option.some.injEq] at h; subst h; exact ⟨rfl, rfl, rfl, rfl, rfl⟩
      · cases h2 : e.get "metatile_height" with
        | none => simp [h2] at h
        | some mh =>
          cases h3 : e.get "metatile_width" with
          | none => simp [h2, h3] at h
          | some mw =>
            simp only [h2, h3, Option.some_bind, Option.some.injEq] at h
            subst h; exact ⟨rfl, rfl, rfl, rfl, rfl⟩

theorem ParseParams_split (e : Json) (p : EndpointParams) (h : ParseParams e = some (some p)) :
    ∃ q, ParseParamsType e (entryType e) (entryBase e) = some (some q)
      ∧ ParseParamsMetatile e q = some p := by
  have he : IsEntry e = true := IsEntry_of_ParseParams e (by rw [h]; simp)
  rw [ParseParams_of_IsEntry e he] at h
  cases hq : ParseParamsType e (entryType e) (entryBase e) with
  | none => simp [hq] at h
  | some r =>
    cases r with
    | none => simp [hq] at h
    | some q =>
      refine ⟨q, rfl, ?_⟩
      simp only [hq, Option.map_eq_some'] at h
      obtain ⟨a, ha, hap⟩ := h
      rw [ha]; simpa using hap

theorem ParseParams_utfgrid (e : Json) (p : EndpointParams) (h : ParseParams e = some (some p))
    (hr : p.type = EndpointType.render) (ha : p.allow_utf_grid = true) : p.utfgrid_key ≠ "" := by
  obtain ⟨q, hq, hm⟩ := ParseParams_split e p h
  obtain ⟨ht, hal, hk, _, _⟩ := ParseParamsMetatile_fields e q p hm
  rw [hk]
  exact (ParseParamsType_fields e _ _ q hq).2.2.2.2.2 (ht ▸ hr) (hal ▸ ha)

theorem ParseEndpoint_mem (es : List Json) (acc ps : List EndpointParams)
    (h : ParseEndpoint es acc = some ps) (p : EndpointParams) (hp : p ∈ ps) :
    p ∈ acc ∨ ∃ e ∈ es, ParseParams e = some (some p) := by
  induction es generalizing acc with
  | nil =>
    simp only [ParseEndpoint, Option.some.injEq] at h
    exact Or.inl (h ▸ hp)
  | cons e es ih =>
    unfold ParseEndpoint at h
    split at h
    · simp at h
    · rcases ih acc h with h1 | ⟨x, hx, hxp⟩
      · exact Or.inl h1
      · exact Or.inr ⟨x, by simp [hx], hxp⟩
    · rename_i q hq
      rcases ih (acc ++ [q]) h with h1 | ⟨x, hx, hxp⟩
      · rcases List.mem_append.1 h1 with h2 | h2
        · exact Or.inl h2
        · have : p = q := by simpa using h2
          exact Or.inr ⟨e, by simp, this ▸ hq⟩
      · exact Or.inr ⟨x, by simp [hx], hxp⟩

theorem ParseEndpointsLoop_mem (kvs : List (String × Json)) (m table : EndpointsMap)
    (h : ParseEndpointsLoop kvs m = some table) (kv : String × List EndpointParams)
    (hkv : kv ∈ table) :
    kv ∈ m ∨ ∃ v, (kv.1, v) ∈ kvs ∧ ParseEndpoint v.elems [] = some kv.2 := by
  induction kvs generalizing m with
  | nil =>
    simp only [ParseEndpointsLoop, Option.some.injEq] at h
    exact Or.inl (h ▸ hkv)
  | cons x kvs ih =>
    obtain ⟨k, v⟩ := x
    unfold ParseEndpointsLoop at h
    split at h
    · rcases ih m h with h1 | ⟨v', hv', hp⟩
      · exact Or.inl h1
      · exact Or.inr ⟨v', by simp [hv'], hp⟩
    · split at h
      · simp at h
      · rename_i endpoint hend
        rcases ih _ h with h1 | ⟨v', hv', hp⟩
        · rcases List.mem_append.1 h1 with h2 | h2
          · exact Or.inl h2
          · have : kv = (k, endpoint) := by simpa using h2
            subst this
            exact Or.inr ⟨v, by simp, hend⟩
        · exact Or.inr ⟨v', by simp [hv'], hp⟩

theorem findEndpoint_mem (path : String) (table : EndpointsMap) (ps : List EndpointParams)
    (h : findEndpoint path table = some ps) : (path, ps) ∈ table := by
  induction table with
  | nil => simp [findEndpoint] at h
  | cons kv table ih =>
    obtain ⟨k, v⟩ := kv
    unfold findEndpoint at h
    split at h
    · rename_i hk
      simp only [Option.some.injEq] at h
      subst hk; subst h
      simp
    · exact List.mem_cons_of_mem _ (ih h)

theorem stored_params_parsed (j : Json) (table : EndpointsMap)
    (h : ParseEndpoints j = some (some table)) (path : String) (ps : List EndpointParams)
    (hf : findEndpoint path table = some ps) (p : EndpointParams) (hp : p ∈ ps) :
    ∃ e, ParseParams e = some (some p) := by
  unfold ParseEndpoints at h
  split at h
  · rename_i kvs
    simp only [Option.map_eq_some', Option.some.injEq] at h
    obtain ⟨t, ht, rfl⟩ := h
    rcases ParseEndpointsLoop_mem kvs [] t ht (path, ps) (findEndpoint_mem path t ps hf) with
      h1 | ⟨v, _, hv⟩
    · simp at h1
    · rcases ParseEndpoint_mem v.elems [] ps hv p hp with h2 | ⟨e, _, he⟩
      · simp at h2
      · exact ⟨e, he⟩
  · simp at h

theorem forall₂_mem_left {α β : Type} (R : α → β → Prop) (l₁ : List α) (l₂ : List β)
    (h : List.Forall₂ R l₁ l₂) (a : α) (ha : a ∈ l₁) : ∃ b ∈ l₂, R a b := by
  induction h with
  | nil => simp at ha
  | cons hab _ ih =>
    rcases List.mem_cons.1 ha with rfl | ha'
    · exact ⟨_, by simp, hab⟩
    · obtain ⟨b, hb, hr⟩ := ih ha'
      exact ⟨b, by simp [hb], hr⟩

theorem ValidEntry_of_ParseParams (e : Json) (p : EndpointParams)
    (h : ParseParams e = some (some p)) : ValidEntry e = true := by
  have he : IsEntry e = true := IsEntry_of_ParseParams e (by rw [h]; simp)
  cases hv : ValidEntry e with
  | true => rfl
  | false =>
    rw [ParseParams_invalid e he hv] at h
    simp at h

theorem mem_of_find (path : String) (kvs : List (String × Json)) (v : Json)
    (hfind : Json.find path kvs = some v) : (path, v) ∈ kvs := by
  induction kvs with
  | nil => simp [Json.find] at hfind
  | cons kv kvs ih =>
    obtain ⟨k, v'⟩ := kv
    unfold Json.find at hfind
    split at hfind
    · rename_i hk
      simp only [Option.some.injEq] at hfind
      subst hk; subst hfind
      simp
    · exact List.mem_cons_of_mem _ (ih hfind)

theorem kept_entry_stored (kvs : List (String × Json))
    (hentries : ∀ kv ∈ kvs, ∀ e ∈ kv.2.elems, IsEntry e = true)
    (path : String) (v e : Json) (p : EndpointParams)
    (hfind : Json.find path kvs = some v) (he : e ∈ v.elems)
    (hp : ParseParams e = some (some p)) :
    ∃ table ps, ParseEndpoints (Json.obj kvs) = some (some table)
      ∧ findEndpoint path table = some ps ∧ p ∈ ps := by
  obtain ⟨table, ht, hfindt⟩ := ParseEndpointsLoop_entries kvs [] hentries
  have hmem : (path, v) ∈ kvs := mem_of_find path kvs v hfind
  obtain ⟨ps, hps, hall⟩ := ParseEndpoint_entries v.elems [] (hentries (path, v) hmem)
  have hstored : findEndpoint path table = some ps := by
    rw [hfindt path]
    simp [findEndpoint, hfind, hps]
  have hin : e ∈ v.elems.filter ValidEntry :=
    List.mem_filter.2 ⟨he, ValidEntry_of_ParseParams e p hp⟩
  obtain ⟨p', hp', hr⟩ := forall₂_mem_left _ _ _ hall e hin
  have : p' = p := by
    rw [hp] at hr
    simpa using hr.symm
  exact ⟨table, ps, by simp [ParseEndpoints, ht], hstored, this ▸ hp'⟩

theorem ParseParamsType_render (e : Json) (h : IsEntry e = true)
    (ht : entryType e = "render") (hs : entryStyle e ≠ "") :
    ParseParamsType e (entryType e) (entryBase e) = some (some (entryRender e)) := by
  unfold ParseParamsType
  rw [get_of_IsEntry e h "allow_utfgrid", get_of_IsEntry e h "utfgrid_key"]
  simp only [Option.bind_eq_bind, Option.some_bind]
  rw [if_neg (by rw [ht]; decide), if_pos ht]
  split
  · rename_i hc
    exact absurd ((String.isEmpty_iff _).1 hc) hs
  · rfl

theorem ParseParamsMetatile_auto (e : Json) (hm : e.get "metatile_size" = some (Json.str "auto"))
    (q : EndpointParams) :
    ParseParamsMetatile e q
      = some (if q.provider_name.isEmpty then q else { q with auto_metatile_size := true }) := by
  unfold ParseParamsMetatile
  rw [hm]
  simp only [Option.bind_eq_bind, Option.some_bind, Json.isString, Json.asString, if_true]
  split <;> rfl

theorem ParseParams_eq_none_iff (e : Json) : ParseParams e = none ↔ IsEntry e = false := by
  constructor
  · intro h
    cases hi : IsEntry e with
    | false => rfl
    | true =>
      cases hv : ValidEntry e with
      | true =>
        obtain ⟨p, hp⟩ := ParseParams_valid e hi hv
        rw [hp] at h
        simp at h
      | false =>
        rw [ParseParams_invalid e hi hv] at h
        simp at h
  · intro h
    cases e <;> first | rfl | simp [IsEntry, Json.isObject, Json.isNull] at h

theorem ParseEndpoint_eq_none_iff (es : List Json) (acc : List EndpointParams) :
    ParseEndpoint es acc = none ↔ ∃ e ∈ es, IsEntry e = false := by
  induction es generalizing acc with
  | nil => simp [ParseEndpoint]
  | cons e es ih =>
    cases hp : ParseParams e with
    | none =>
      have hi := (ParseParams_eq_none_iff e).1 hp
      simp [ParseEndpoint, hp, hi]
    | some r =>
      have hi : IsEntry e = true := IsEntry_of_ParseParams e (by rw [hp]; simp)
      cases r with
      | none => simp [ParseEndpoint, hp, ih, hi]
      | some p => simp [ParseEndpoint, hp, ih, hi]

theorem ParseEndpointsLoop_eq_none_iff (kvs : List (String × Json)) (m : EndpointsMap) :
    ParseEndpointsLoop kvs m = none ↔
      ∃ path v e, Json.find path kvs = some v ∧ findEndpoint path m = none
        ∧ e ∈ v.elems ∧ IsEntry e = false := by
  induction kvs generalizing m with
  | nil => simp [ParseEndpointsLoop, Json.find]
  | cons kv kvs ih =>
    obtain ⟨k, v⟩ := kv
    cases hk : findEndpoint k m with
    | some ps0 =>
      simp only [ParseEndpointsLoop, hk, Option.isSome_some, if_true]
      rw [ih m]
      constructor
      · rintro ⟨path, v', e, hf, hm, he, hi⟩
        have hne : k ≠ path := by
          rintro rfl
          rw [hk] at hm
          simp at hm
        exact ⟨path, v', e, by simp [Json.find, hne, hf], hm, he, hi⟩
      · rintro ⟨path, v', e, hf, hm, he, hi⟩
        have hne : k ≠ path := by
          rintro rfl
          rw [hk] at hm
          simp at hm
        exact ⟨path, v', e, by simpa [Json.find, hne] using hf, hm, he, hi⟩
    | none =>
      cases hp : ParseEndpoint v.elems [] with
      | none =>
        obtain ⟨e, he, hi⟩ := (ParseEndpoint_eq_none_iff v.elems []).1 hp
        have hloop : ParseEndpointsLoop ((k, v) :: kvs) m = none := by
          simp [ParseEndpointsLoop, hk, hp]
        exact ⟨fun _ => ⟨k, v, e, by simp [Json.find], hk, he, hi⟩, fun _ => hloop⟩
      | some ep =>
        have hall : ∀ e ∈ v.elems, IsEntry e = true := by
          intro e he
          cases hi : IsEntry e with
          | true => rfl
          | false =>
            have := (ParseEndpoint_eq_none_iff v.elems []).2 ⟨e, he, hi⟩
            rw [hp] at this
            simp at this
        have hloop : ParseEndpointsLoop ((k, v) :: kvs) m
            = ParseEndpointsLoop kvs (m ++ [(k, ep)]) := by
          simp [ParseEndpointsLoop, hk, hp]
        rw [hloop, ih]
        constructor
        · rintro ⟨path, v', e, hf, hm, he, hi⟩
          rw [findEndpoint_append] at hm
          cases hpm : findEndpoint path m with
          | some ps => rw [hpm] at hm; simp at hm
          | none =>
            rw [hpm] at hm
            have hne : k ≠ path := by
              intro heq
              simp [heq] at hm
            exact ⟨path, v', e, by simp [Json.find, hne, hf], hpm, he, hi⟩
        · rintro ⟨path, v', e, hf, hm, he, hi⟩
          have hne : k ≠ path := by
            rintro rfl
            simp only [Json.find, if_true, Option.some.injEq] at hf
            subst hf
            rw [hall e he] at hi
            simp at hi
          refine ⟨path, v', e, by simpa [Json.find, hne] using hf, ?_, he, hi⟩
          rw [findEndpoint_append, hm]
          simp [hne]

theorem ParseEndpointsLoop_find (kvs : List (String × Json)) (m table : EndpointsMap)
    (h : ParseEndpointsLoop kvs m = some table) (path : String) :
    findEndpoint path table
      = match findEndpoint path m with
        | some ps => some ps
        | none => (Json.find path kvs).bind (fun v => ParseEndpoint v.elems []) := by
  induction kvs generalizing m with
  | nil =>
    simp only [ParseEndpointsLoop, Option.some.injEq] at h
    subst h
    cases findEndpoint path m <;> rfl
  | cons kv kvs ih =>
    obtain ⟨k, v⟩ := kv
    cases hk : findEndpoint k m with
    | some ps0 =>
      have hloop : ParseEndpointsLoop kvs m = some table := by
        simpa [ParseEndpointsLoop, hk] using h
      rw [ih m hloop]
      cases hp : findEndpoint path m with
      | some ps => rfl
      | none =>
        have hne : k ≠ path := by
          intro heq
          rw [heq, hp] at hk
          exact absurd hk (by simp)
        simp [Json.find, hne]
    | none =>
      cases hps : ParseEndpoint v.elems [] with
      | none => simp [ParseEndpointsLoop, hk, hps] at h
      | some ps =>
        have hloop : ParseEndpointsLoop kvs (m ++ [(k, ps)]) = some table := by
          simpa [ParseEndpointsLoop, hk, hps] using h
        rw [ih _ hloop, findEndpoint_append]
        cases hp : findEndpoint path m with
        | some ps' => rfl
        | none =>
          by_cases hkp : k = path
          · simp [Json.find, hkp, hps]
          · simp [Json.find, hkp]

end MapsExpress

/-! ## The endpoint table: claims -/

namespace MapsExpress

/-- C7. UTF-grid is forced off without a key: in every table `ParseEndpoints`
returns, a render entry with `allow_utf_grid` set has a non-empty
`utfgrid_key`; and an input render entry that names a style and asks for the
UTF-grid without giving a key is stored for its path, with `allow_utf_grid`
false. -/
theorem utfgrid_forced_off_without_key :
    (∀ (j : Json) (table : EndpointsMap) (path : String) (ps : List EndpointParams)
        (p : EndpointParams),
        ParseEndpoints j = some (some table) → findEndpoint path table = some ps → p ∈ ps →
        p.type = EndpointType.render → p.allow_utf_grid = true → p.utfgrid_key ≠ "")
      ∧ (∀ (kvs : List (String × Json)) (path : String) (v e : Json),
          (∀ kv ∈ kvs, ∀ x ∈ kv.2.elems, IsEntry x = true) →
          Json.find path kvs = some v → e ∈ v.elems →
          entryType e = "render" → entryStyle e ≠ "" →
          entryAllowUtfGrid e = true → entryUtfGridKey e = "" →
          ∃ table ps p, ParseEndpoints (Json.obj kvs) = some (some table)
            ∧ findEndpoint path table = some ps ∧ p ∈ ps
            ∧ ParseParams e = some (some p)
            ∧ p.type = EndpointType.render ∧ p.style_name = entryStyle e
            ∧ p.allow_utf_grid = false) := by
  constructor
  · intro j table path ps p hj hf hp hr ha
    obtain ⟨e, he⟩ := stored_params_parsed j table hj path ps hf p hp
    exact ParseParams_utfgrid e p he hr ha
  · intro kvs path v e hentries hfind he ht hs ha hk
    have hmem : IsEntry e = true := by
      exact hentries _ (mem_of_find path kvs v hfind) e he
    have hq := ParseParamsType_render e hmem ht hs
    obtain ⟨p, hp⟩ := ParseParamsMetatile_isSome e hmem (entryRender e)
    have hpp : ParseParams e = some (some p) := by
      rw [ParseParams_of_IsEntry e hmem, hq]
      show (ParseParamsMetatile e (entryRender e)).map some = _
      rw [hp]; rfl
    obtain ⟨table, ps, h1, h2, h3⟩ := kept_entry_stored kvs hentries path v e p hfind he hpp
    obtain ⟨f1, f2, _, _, f5⟩ := ParseParamsMetatile_fields e _ p hp
    refine ⟨table, ps, p, h1, h2, h3, hpp, f1, f5, ?_⟩
    rw [f2]
    simp only [entryRender, ha, hk]
    rfl

/-- C8. Auto metatile without a provider falls back to 1x1: a valid entry whose
`metatile_size` is the string `auto` is stored for its path; without a
provider it has `auto_metatile_size` false and a 1x1 metatile, whatever
`metatile_width` and `metatile_height` it carries; with a provider it has
`auto_metatile_size` true. -/
theorem auto_metatile_needs_provider (kvs : List (String × Json)) (path : String) (v e : Json)
    (hentries : ∀ kv ∈ kvs, ∀ x ∈ kv.2.elems, IsEntry x = true)
    (hfind : Json.find path kvs = some v) (he : e ∈ v.elems)
    (hvalid : ValidEntry e = true)
    (hauto : e.get "metatile_size" = some (Json.str "auto")) :
    ∃ table ps p, ParseEndpoints (Json.obj kvs) = some (some table)
      ∧ findEndpoint path table = some ps ∧ p ∈ ps
      ∧ ParseParams e = some (some p)
      ∧ (entryProvider e = "" →
          p.auto_metatile_size = false ∧ p.metatile_width = 1 ∧ p.metatile_height = 1)
      ∧ (entryProvider e ≠ "" → p.auto_metatile_size = true) := by
  have hmem : IsEntry e = true := hentries _ (mem_of_find path kvs v hfind) e he
  obtain ⟨q, hq, hprov, _⟩ := ParseParamsType_valid e hmem hvalid
  obtain ⟨_, _, fa, fh, fw, _⟩ := ParseParamsType_fields e _ _ q hq
  have hm := ParseParamsMetatile_auto e hauto q
  have hpp : ParseParams e
      = some (some (if q.provider_name.isEmpty then q else { q with auto_metatile_size := true })) := by
    rw [ParseParams_of_IsEntry e hmem, hq]
    show (ParseParamsMetatile e q).map some = _
    rw [hm]; rfl
  obtain ⟨table, ps, h1, h2, h3⟩ := kept_entry_stored kvs hentries path v e _ hfind he hpp
  refine ⟨table, ps, _, h1, h2, h3, hpp, ?_, ?_⟩
  · intro hp
    have : q.provider_name.isEmpty = true := by rw [hprov, hp]; rfl
    rw [if_pos this]
    exact ⟨fa, fw, fh⟩
  · intro hp
    have : ¬ q.provider_name.isEmpty = true := by
      rw [hprov, String.isEmpty_iff]; exact hp
    rw [if_neg this]

/-- C6, as the code has it. Endpoint validation filter: for an endpoints object
in which every entry is a JSON object (or null), `ParseEndpoints` returns a
table; for every path of the object the stored list matches, one to one and in
order, the entries of that path that satisfy the validity constraints, each
stored record being the one parsed from its entry; a path that is not in the
object is not in the table. An entry that is a JSON object is pushed when it is
valid and dropped by a `continue` when it is not. An entry that is any other
JSON value is not dropped: reading its fields raises `Json::LogicError`, and
`ParseEndpoints` then raises for the whole object and returns no table. -/
theorem ParseEndpoints_stores_valid_entries (kvs : List (String × Json)) :
    ((∀ path v, Json.find path kvs = some v → ∀ e ∈ v.elems, IsEntry e = true) →
      ∃ table, ParseEndpoints (Json.obj kvs) = some (some table)
        ∧ (∀ path v, Json.find path kvs = some v →
            ∃ ps, findEndpoint path table = some ps
              ∧ List.Forall₂ (fun e p => ParseParams e = some (some p))
                  (v.elems.filter ValidEntry) ps)
        ∧ (∀ path, Json.find path kvs = none → findEndpoint path table = none))
      ∧ (∀ e, IsEntry e = true →
          (ValidEntry e = true → ∃ p, ParseParams e = some (some p))
            ∧ (ValidEntry e = false → ParseParams e = some none))
      ∧ (∀ e, IsEntry e = false → ParseParams e = none)
      ∧ ((∃ path v e, Json.find path kvs = some v ∧ e ∈ v.elems ∧ IsEntry e = false) →
          ParseEndpoints (Json.obj kvs) = none) := by
  refine ⟨?_, ?_, ?_, ?_⟩
  · intro hgood
    cases ht : ParseEndpointsLoop kvs [] with
    | none =>
      obtain ⟨path, v, e, hf, _, he, hi⟩ := (ParseEndpointsLoop_eq_none_iff kvs []).1 ht
      rw [hgood path v hf e he] at hi
      simp at hi
    | some table =>
      refine ⟨table, by simp [ParseEndpoints, ht], ?_, ?_⟩
      · intro path v hv
        obtain ⟨ps, hps, hall⟩ := ParseEndpoint_entries v.elems [] (hgood path v hv)
        refine ⟨ps, ?_, hall⟩
        rw [ParseEndpointsLoop_find kvs [] table ht path]
        simp [findEndpoint, hv, hps]
      · intro path hv
        rw [ParseEndpointsLoop_find kvs [] table ht path]
        simp [findEndpoint, hv]
  · intro e he
    exact ⟨ParseParams_valid e he, ParseParams_invalid e he⟩
  · intro e he
    exact (ParseParams_eq_none_iff e).2 he
  · rintro ⟨path, v, e, hf, he, hi⟩
    have := (ParseEndpointsLoop_eq_none_iff kvs []).2 ⟨path, v, e, hf, rfl, he, hi⟩
    simp [ParseEndpoints, this]

theorem ParseEndpoints_stores_valid_entries_witness :
    (∃ table, ParseEndpoints (Json.obj sampleEndpointMembers) = some (some table)
      ∧ (∀ path v, Json.find path sampleEndpointMembers = some v →
          ∃ ps, findEndpoint path table = some ps
            ∧ List.Forall₂ (fun e p => ParseParams e = some (some p))
                (v.elems.filter ValidEntry) ps)
      ∧ (∀ path, Json.find path sampleEndpointMembers = none → findEndpoint path table = none))
      ∧ ParseEndpoints (Json.obj [("/t/", Json.arr [sampleGridEntry, Json.int 5])]) = none :=
  ⟨(ParseEndpoints_stores_valid_entries sampleEndpointMembers).1
      (fun path v hf e he =>
        (by decide : ∀ kv ∈ sampleEndpointMembers, ∀ x ∈ kv.2.elems, IsEntry x = true)
          (path, v) (mem_of_find path _ v hf) e he),
   (ParseEndpoints_stores_valid_entries [("/t/", Json.arr [sampleGridEntry, Json.int 5])]).2.2.2
      ⟨"/t/", Json.arr [sampleGridEntry, Json.int 5], Json.int 5, rfl, by simp [Json.elems], rfl⟩⟩

/-- C6, as stated, fails: the path `/a/` holds one valid entry and the path
`/t/` holds the string `"x"`, which does not satisfy the validity constraints;
the string is not dropped, `ParseEndpoints` raises and stores nothing, the
valid entry of `/a/` included. -/
theorem ParseEndpoints_raises_on_string_entry :
    ValidEntry (Json.obj [("data_provider", Json.str "p")]) = true
      ∧ ValidEntry (Json.str "x") = false
      ∧ ParseEndpoints
          (Json.obj [("/a/", Json.arr [Json.obj [("data_provider", Json.str "p")]]),
                     ("/t/", Json.arr [Json.str "x"])]) = none := by
  refine ⟨by decide, by decide, by decide⟩

theorem utfgrid_forced_off_without_key_witness :
    sampleGridParams.utfgrid_key ≠ ""
      ∧ ∃ table ps p, ParseEndpoints (Json.obj sampleEndpointMembers) = some (some table)
          ∧ findEndpoint "/t/" table = some ps ∧ p ∈ ps
          ∧ ParseParams sampleRenderEntry = some (some p)
          ∧ p.type = EndpointType.render ∧ p.style_name = entryStyle sampleRenderEntry
          ∧ p.allow_utf_grid = false :=
  ⟨utfgrid_forced_off_without_key.1 (Json.obj [("/g/", Json.arr [sampleGridEntry])])
      [("/g/", [sampleGridParams])] "/g/" [sampleGridParams] sampleGridParams
      (by decide) (by decide) (List.Mem.head _) rfl rfl,
   utfgrid_forced_off_without_key.2 sampleEndpointMembers "/t/" _ sampleRenderEntry
      (by decide) rfl (List.Mem.tail _ (List.Mem.head _)) (by decide) (by decide)
      (by decide) (by decide)⟩

theorem auto_metatile_needs_provider_witness :
    ∃ table ps p, ParseEndpoints (Json.obj sampleEndpointMembers) = some (some table)
      ∧ findEndpoint "/t/" table = some ps ∧ p ∈ ps
      ∧ ParseParams sampleRenderEntry = some (some p)
      ∧ (entryProvider sampleRenderEntry = "" →
          p.auto_metatile_size = false ∧ p.metatile_width = 1 ∧ p.metatile_height = 1)
      ∧ (entryProvider sampleRenderEntry ≠ "" → p.auto_metatile_size = true) :=
  auto_metatile_needs_provider sampleEndpointMembers "/t/" _ sampleRenderEntry
    (by decide) rfl (List.Mem.tail _ (List.Mem.head _)) (by decide) rfl

end MapsExpress

/-! ## Coalescing and repetition: auxiliary facts -/

namespace MapsExpress

namespace RenderManager

theorem PostStyleUpdate_busy (fuel : Nat) (X : Json) (s : RenderManager)
    (hbusy : s.updating_ = true ∨ s.inited_ = false) :
    PostStyleUpdate (fuel + 1) X s = some { s with styles_update_ := some X } := by
  rcases hbusy with h | h <;> simp [PostStyleUpdate, TryProcessStyleUpdate, h]

theorem TryProcessStyleUpdate_drains_once (fuel : Nat) (X : Json) (t : RenderManager)
    (hinit : t.inited_ = true) (hfree : t.updating_ = false)
    (hsnap : t.styles_update_ = some X) :
    ∃ t' new, TryProcessStyleUpdate (fuel + 3) t = some t'
      ∧ t'.parsed_ = t.parsed_ ++ [X] ∧ t'.styles_update_ = none
      ∧ t'.render_pool_.control = t.render_pool_.control ++ new
      ∧ new.length ≤ 1 ∧ (∀ d ∈ new, d.action = Action.UpdateWorker)
      ∧ t'.style_names_ = t.style_names_ := by
  rcases hparse : ParseStyles X t.pending_update_ with ⟨r, pending⟩
  rcases r with _ | _ | _
  · have h1 : TryProcessStyleUpdate (fuel + 3) t
        = some { t with updating_ := true, styles_update_ := none, pending_update_ := pending,
                        parsed_ := t.parsed_ ++ [X], threw_ := true } := by
      simp [TryProcessStyleUpdate, hinit, hfree, hsnap, hparse]
    exact ⟨_, [], h1, rfl, rfl, by simp, by simp, by simp, rfl⟩
  · have h1 : TryProcessStyleUpdate (fuel + 3) t
        = some (released { t with updating_ := true, styles_update_ := none,
                                  pending_update_ := pending, parsed_ := t.parsed_ ++ [X] }) := by
      simp only [TryProcessStyleUpdate, hinit, hfree, hsnap, hparse]
      simp only [Bool.not_true, Option.isNone_some, Bool.or_self, Bool.false_eq_true, if_false]
      rw [FinishUpdate_no_snapshot fuel _ rfl]
    exact ⟨_, [], h1, rfl, rfl, by simp [released], by simp, by simp, rfl⟩
  · have h1 : TryProcessStyleUpdate (fuel + 3) t
        = some (ExecuteOnWorker
            { t with updating_ := true, styles_update_ := none, pending_update_ := pending,
                     parsed_ := t.parsed_ ++ [X], workers_to_update_ := t.render_pool_.workers }
            Action.UpdateWorker t.render_pool_.workers.getLast?) := by
      simp [TryProcessStyleUpdate, hinit, hfree, hsnap, hparse]
    exact ⟨_, [{ action := Action.UpdateWorker, target := t.render_pool_.workers.getLast? }],
      h1, rfl, rfl, by simp [ExecuteOnWorker], by simp, by simp, rfl⟩

theorem update_run_committed (US : Worker → List StyleInfo → Bool) (fuel : Nat)
    (s : RenderManager) (X : Json) (L : List StyleInfo)
    (hinit : s.inited_ = true) (hfree : s.updating_ = false)
    (hinbox : s.render_pool_.inbox = [])
    (hparse : ParseStyles X s.pending_update_ = (some true, L))
    (hne : s.render_pool_.workers ≠ [])
    (hok : ∀ w ∈ s.render_pool_.workers, US w L = true) :
    (PostStyleUpdate (fuel + 2) X s).bind
        (PoolRun US (fuel + 2) s.render_pool_.workers.length)
      = some (committed (started s X L)) := by
  rw [PostStyleUpdate_started (fuel + 1) s X L hinit hfree hparse, Option.some_bind]
  rcases List.eq_nil_or_concat s.render_pool_.workers with hnil | ⟨pre, w, hW⟩
  · exact absurd hnil hne
  have hW' : s.render_pool_.workers = pre ++ [w] := by rw [hW]; simp
  exact PoolRun_all_prepared US fuel pre w (started s X L) s.render_pool_.workers.length
    (by simp only [started, ExecuteOnWorker]; exact hW')
    (by
      simp only [started, ExecuteOnWorker, hinbox, hW', List.getLast?_concat]
      simp)
    (by simp [started, ExecuteOnWorker])
    (by
      intro x hx
      have := hok x (by rw [hW']; exact hx)
      simpa [started, ExecuteOnWorker] using this)
    (by simp [hW'])

theorem committed_started_control (s : RenderManager) (X : Json) (L : List StyleInfo)
    (hupd : s.updated_workers_ = []) (hne : s.render_pool_.workers ≠ []) :
    (committed (started s X L)).render_pool_.control = s.render_pool_.control
      ++ (updateCalls s.render_pool_.workers.reverse
      ++ callsOn Action.CommitUpdate (s.render_pool_.workers.reverse.map some)) := by
  rcases List.eq_nil_or_concat s.render_pool_.workers with hnil | ⟨pre, w, hW⟩
  · exact absurd hnil hne
  have hW' : s.render_pool_.workers = pre ++ [w] := by rw [hW]; simp
  simp only [committed, started, ExecuteOnWorker, hupd, hW', List.getLast?_concat,
    List.dropLast_concat]
  simp [updateCalls]

theorem targetsOf_commit_committed (s : RenderManager) (X : Json) (L : List StyleInfo)
    (hupd : s.updated_workers_ = []) (hne : s.render_pool_.workers ≠ []) :
    targetsOf Action.CommitUpdate (committed (started s X L))
      = targetsOf Action.CommitUpdate s ++ s.render_pool_.workers.reverse.map some := by
  rw [targetsOf_append Action.CommitUpdate s _ _ (committed_started_control s X L hupd hne),
    List.filter_append, filter_updateCalls_commit, List.nil_append, filter_callsOn_self]

theorem targetsOf_update_committed (s : RenderManager) (X : Json) (L : List StyleInfo)
    (hupd : s.updated_workers_ = []) (hne : s.render_pool_.workers ≠ []) :
    targetsOf Action.UpdateWorker (committed (started s X L))
      = targetsOf Action.UpdateWorker s ++ s.render_pool_.workers.reverse.map some := by
  rw [targetsOf_append Action.UpdateWorker s _ _ (committed_started_control s X L hupd hne)]
  congr 1
  simp [updateCalls, callsOn, List.filter_append, List.filter_map, Function.comp_def]

end RenderManager

end MapsExpress

/-! ## Coalescing and repetition: claims -/

namespace MapsExpress

namespace RenderManager

/-- C9. Update coalescing: two snapshots posted while an update is in flight or
before the manager is initialised are only stored, the second over the first;
nothing is parsed and no closure is handed to a worker. When the guard becomes
free (the update in flight finishes, or the constructor sets `inited_`) one
drain runs: it parses the second snapshot and empties the slot, the first
snapshot is not handed to `ParseStyles`, and at most one `UpdateWorker` closure
is handed out. -/
theorem posted_snapshots_coalesce (fuel : Nat) (s : RenderManager) (X1 X2 : Json)
    (hbusy : s.updating_ = true ∨ s.inited_ = false) :
    (PostStyleUpdate (fuel + 1) X1 s).bind (PostStyleUpdate (fuel + 1) X2)
        = some { s with styles_update_ := some X2 }
      ∧ (s.inited_ = true →
          ∃ s' new, FinishUpdate (fuel + 4) { s with styles_update_ := some X2 } = some s'
            ∧ s'.parsed_ = s.parsed_ ++ [X2] ∧ s'.styles_update_ = none
            ∧ s'.render_pool_.control = s.render_pool_.control ++ new
            ∧ new.length ≤ 1 ∧ (∀ d ∈ new, d.action = Action.UpdateWorker)
            ∧ s'.style_names_ = s.style_names_)
      ∧ (s.updating_ = false →
          ∃ s' new,
            TryProcessStyleUpdate (fuel + 3) { s with styles_update_ := some X2, inited_ := true }
                = some s'
            ∧ s'.parsed_ = s.parsed_ ++ [X2] ∧ s'.styles_update_ = none
            ∧ s'.render_pool_.control = s.render_pool_.control ++ new
            ∧ new.length ≤ 1 ∧ (∀ d ∈ new, d.action = Action.UpdateWorker)
            ∧ s'.style_names_ = s.style_names_) := by
  refine ⟨?_, ?_, ?_⟩
  · rw [PostStyleUpdate_busy fuel X1 s hbusy, Option.some_bind,
      PostStyleUpdate_busy fuel X2 { s with styles_update_ := some X1 } hbusy]
  · intro hinit
    have := TryProcessStyleUpdate_drains_once fuel X2
      (released { s with styles_update_ := some X2 }) hinit rfl rfl
    simpa [FinishUpdate, released] using this
  · intro hfree
    exact TryProcessStyleUpdate_drains_once fuel X2
      { s with styles_update_ := some X2, inited_ := true } rfl hfree rfl

theorem posted_snapshots_coalesce_witness :
    (PostStyleUpdate 1 sampleSnapshot
          (started (idleManager [1, 2] ["s1"]) sampleSnapshot sampleStyles)).bind
        (PostStyleUpdate 1 (Json.obj []))
        = some { started (idleManager [1, 2] ["s1"]) sampleSnapshot sampleStyles with
                 styles_update_ := some (Json.obj []) }
      ∧ ((started (idleManager [1, 2] ["s1"]) sampleSnapshot sampleStyles).inited_ = true →
          ∃ s' new,
            FinishUpdate 4
                { started (idleManager [1, 2] ["s1"]) sampleSnapshot sampleStyles with
                  styles_update_ := some (Json.obj []) } = some s'
            ∧ s'.parsed_
                = (started (idleManager [1, 2] ["s1"]) sampleSnapshot sampleStyles).parsed_
                  ++ [Json.obj []]
            ∧ s'.styles_update_ = none
            ∧ s'.render_pool_.control
                = (started (idleManager [1, 2] ["s1"]) sampleSnapshot
                    sampleStyles).render_pool_.control ++ new
            ∧ new.length ≤ 1 ∧ (∀ d ∈ new, d.action = Action.UpdateWorker)
            ∧ s'.style_names_
                = (started (idleManager [1, 2] ["s1"]) sampleSnapshot sampleStyles).style_names_)
      ∧ ((started (idleManager [1, 2] ["s1"]) sampleSnapshot sampleStyles).updating_ = false →
          ∃ s' new,
            TryProcessStyleUpdate 3
                { started (idleManager [1, 2] ["s1"]) sampleSnapshot sampleStyles with
                  styles_update_ := some (Json.obj []), inited_ := true } = some s'
            ∧ s'.parsed_
                = (started (idleManager [1, 2] ["s1"]) sampleSnapshot sampleStyles).parsed_
                  ++ [Json.obj []]
            ∧ s'.styles_update_ = none
            ∧ s'.render_pool_.control
                = (started (idleManager [1, 2] ["s1"]) sampleSnapshot
                    sampleStyles).render_pool_.control ++ new
            ∧ new.length ≤ 1 ∧ (∀ d ∈ new, d.action = Action.UpdateWorker)
            ∧ s'.style_names_
                = (started (idleManager [1, 2] ["s1"]) sampleSnapshot sampleStyles).style_names_) :=
  posted_snapshots_coalesce 0 (started (idleManager [1, 2] ["s1"]) sampleSnapshot sampleStyles)
    sampleSnapshot (Json.obj []) (Or.inl rfl)

/-- C10, as the code has it. Repeating an update: from an idle manager with a
non-empty pool on which every prepare succeeds, running the update for a
snapshot to its end and then running it again for the same snapshot leaves the
published style-name set equal to the set after the first run; the second run
hands `UpdateWorker` (the prepare) to every worker of the pool again, last
worker first, and then hands `CommitUpdate` to every worker of the pool once
more: its calls on the pool are exactly those prepares followed by those
commits. -/
theorem repeated_update_commits_again (US : Worker → List StyleInfo → Bool) (fuel : Nat)
    (s : RenderManager) (X : Json) (L : List StyleInfo)
    (hinit : s.inited_ = true) (hfree : s.updating_ = false)
    (hinbox : s.render_pool_.inbox = []) (hpend : s.pending_update_ = [])
    (hparse : ParseStyles X [] = (some true, L))
    (hne : s.render_pool_.workers ≠ [])
    (hok : ∀ w ∈ s.render_pool_.workers, US w L = true) :
    ∃ s1 s2,
      (PostStyleUpdate (fuel + 2) X s).bind
          (PoolRun US (fuel + 2) s.render_pool_.workers.length) = some s1
        ∧ (PostStyleUpdate (fuel + 2) X s1).bind
          (PoolRun US (fuel + 2) s.render_pool_.workers.length) = some s2
        ∧ s2.style_names_ = s1.style_names_
        ∧ targetsOf Action.CommitUpdate s2
            = targetsOf Action.CommitUpdate s1 ++ s.render_pool_.workers.reverse.map some
        ∧ s2.updating_ = false
        ∧ targetsOf Action.UpdateWorker s2
            = targetsOf Action.UpdateWorker s1 ++ s.render_pool_.workers.reverse.map some
        ∧ s2.render_pool_.control = s1.render_pool_.control
            ++ (updateCalls s.render_pool_.workers.reverse
            ++ callsOn Action.CommitUpdate (s.render_pool_.workers.reverse.map some)) := by
  have h1 := update_run_committed US fuel s X L hinit hfree hinbox (by rw [hpend]; exact hparse)
    hne hok
  have h2 := update_run_committed US fuel (committed (started s X L)) X L hinit rfl rfl hparse
    hne hok
  refine ⟨_, _, h1, h2, rfl, ?_, rfl, ?_, ?_⟩
  · exact targetsOf_commit_committed (committed (started s X L)) X L rfl hne
  · exact targetsOf_update_committed (committed (started s X L)) X L rfl hne
  · exact committed_started_control (committed (started s X L)) X L rfl hne

theorem repeated_update_commits_again_witness :
    ∃ s1 s2,
      (PostStyleUpdate 2 sampleSnapshot (idleManager [1, 2] ["s1"])).bind
          (PoolRun alwaysPrepared 2 2) = some s1
        ∧ (PostStyleUpdate 2 sampleSnapshot s1).bind (PoolRun alwaysPrepared 2 2) = some s2
        ∧ s2.style_names_ = s1.style_names_
        ∧ targetsOf Action.CommitUpdate s2
            = targetsOf Action.CommitUpdate s1 ++ [some 2, some 1]
        ∧ s2.updating_ = false
        ∧ targetsOf Action.UpdateWorker s2
            = targetsOf Action.UpdateWorker s1 ++ [some 2, some 1]
        ∧ s2.render_pool_.control = s1.render_pool_.control
            ++ (updateCalls [2, 1] ++ callsOn Action.CommitUpdate [some 2, some 1]) :=
  repeated_update_commits_again alwaysPrepared 0 (idleManager [1, 2] ["s1"]) sampleSnapshot
    sampleStyles rfl rfl rfl rfl (by decide) (by decide) (fun _ _ => rfl)

/-- C10, as stated, fails: on a pool of one worker, the second run of the same
snapshot hands `CommitUpdate` to worker 1 again. -/
theorem repeated_update_second_commit :
    ∃ s1 s2,
      (PostStyleUpdate 2 sampleSnapshot (idleManager [1] ["s1"])).bind
          (PoolRun alwaysPrepared 2 1) = some s1
        ∧ (PostStyleUpdate 2 sampleSnapshot s1).bind (PoolRun alwaysPrepared 2 1) = some s2
        ∧ targetsOf Action.CommitUpdate s1 = [some 1]
        ∧ targetsOf Action.CommitUpdate s2 = [some 1, some 1] := by
  have h1 := update_run_committed alwaysPrepared 0 (idleManager [1] ["s1"]) sampleSnapshot
    sampleStyles rfl rfl rfl (by decide) (by decide) (fun _ _ => rfl)
  have h2 := update_run_committed alwaysPrepared 0
    (committed (started (idleManager [1] ["s1"]) sampleSnapshot sampleStyles)) sampleSnapshot
    sampleStyles rfl rfl rfl (by decide) (by decide) (fun _ _ => rfl)
  have t1 := targetsOf_commit_committed (idleManager [1] ["s1"]) sampleSnapshot sampleStyles
    rfl (by decide)
  have t2 := targetsOf_commit_committed
    (committed (started (idleManager [1] ["s1"]) sampleSnapshot sampleStyles)) sampleSnapshot
    sampleStyles rfl (by decide)
  refine ⟨_, _, h1, h2, ?_, ?_⟩
  · rw [t1]; rfl
  · rw [t2, t1]; rfl

end RenderManager

end MapsExpress

/-! ## Ports, style entries and routing: auxiliary facts -/

namespace MapsExpress

theorem get_isSome_of_get (j : Json) (k k' : String) (x : Json) (h : j.get k = some x) :
    ∃ y, j.get k' = some y := by
  cases j <;> simp_all [Json.get]

theorem ParseStyleInfo_of_fields (name : String) (j : Json) (info : StyleInfo) (p : String)
    (a v : Json) (hname : name.isEmpty = false) (hm : j.get "map" = some (Json.str p))
    (ha : j.get "allow_utfgrid" = some a) (hv : j.get "version" = some v) :
    ParseStyleInfo name j info =
      if a.isBool then
        (some true, { name := name, path := p, allow_grid_render := info.allow_grid_render,
                      version := if v.isUInt then v.asUInt else info.version })
      else
        match a.asBool with
        | none => (none, { name := name, path := p, allow_grid_render := info.allow_grid_render,
                           version := info.version })
        | some b => (some true, { name := name, path := p, allow_grid_render := b,
                                  version := if v.isUInt then v.asUInt else info.version }) := by
  unfold ParseStyleInfo
  simp only [hname, hm, ha, hv, Bool.false_eq_true, if_false]
  cases a <;> simp only [Json.isBool, Json.asBool, Bool.not_false, Bool.not_true, if_true,
    Bool.false_eq_true, if_false] <;> split <;> rfl

theorem ParseStyleInfo_true (name : String) (j : Json) (info info' : StyleInfo)
    (h : ParseStyleInfo name j info = (some true, info')) :
    name ≠ "" ∧ ∃ p, j.get "map" = some (Json.str p) ∧ info'.name = name ∧ info'.path = p := by
  cases hname : name.isEmpty with
  | true =>
    simp [ParseStyleInfo, hname] at h
  | false =>
    refine ⟨fun hn => by rw [hn] at hname; exact absurd hname (by decide), ?_⟩
    cases hm : j.get "map" with
    | none => simp [ParseStyleInfo, hname, hm] at h
    | some jm =>
      obtain ⟨a, ha⟩ := get_isSome_of_get j "map" "allow_utfgrid" jm hm
      obtain ⟨v, hv⟩ := get_isSome_of_get j "map" "version" jm hm
      cases jm with
      | str p =>
        refine ⟨p, rfl, ?_⟩
        rw [ParseStyleInfo_of_fields name j info p a v hname hm ha hv] at h
        split at h
        · simp only [Prod.mk.injEq, true_and] at h
          rw [← h]; exact ⟨rfl, rfl⟩
        · split at h
          · simp at h
          · simp only [Prod.mk.injEq, true_and] at h
            rw [← h]; exact ⟨rfl, rfl⟩
      | null => simp [ParseStyleInfo, hname, hm] at h
      | int _ => simp [ParseStyleInfo, hname, hm] at h
      | real _ => simp [ParseStyleInfo, hname, hm] at h
      | bool _ => simp [ParseStyleInfo, hname, hm] at h
      | arr _ => simp [ParseStyleInfo, hname, hm] at h
      | obj _ => simp [ParseStyleInfo, hname, hm] at h

theorem ParseStyleInfo_empty_name (j : Json) (info : StyleInfo) :
    (ParseStyleInfo "" j info).1 = some false := by
  simp [ParseStyleInfo]
  rfl

theorem ParseStyleInfo_map_not_string (name : String) (j jm : Json) (info : StyleInfo)
    (hm : j.get "map" = some jm) (hs : jm.isString = false) :
    (ParseStyleInfo name j info).1 = some false := by
  unfold ParseStyleInfo
  dsimp only
  split
  · rfl
  · cases jm <;> simp_all [Json.isString]

theorem ParseStyleInfo_bool_keeps_field (name : String) (j : Json) (info : StyleInfo) (b : Bool)
    (ha : j.get "allow_utfgrid" = some (Json.bool b)) :
    (ParseStyleInfo name j info).2.allow_grid_render = info.allow_grid_render := by
  cases hname : name.isEmpty with
  | true => simp [ParseStyleInfo, hname]
  | false =>
    obtain ⟨jm, hm⟩ := get_isSome_of_get j "allow_utfgrid" "map" _ ha
    obtain ⟨v, hv⟩ := get_isSome_of_get j "allow_utfgrid" "version" _ ha
    cases jm with
    | str p =>
      rw [ParseStyleInfo_of_fields name j info p _ v hname hm ha hv]
      simp [Json.isBool]
    | null => simp [ParseStyleInfo, hname, hm]
    | int _ => simp [ParseStyleInfo, hname, hm]
    | real _ => simp [ParseStyleInfo, hname, hm]
    | bool _ => simp [ParseStyleInfo, hname, hm]
    | arr _ => simp [ParseStyleInfo, hname, hm]
    | obj _ => simp [ParseStyleInfo, hname, hm]

end MapsExpress

/-! ## Ports, style entries and routing: claims -/

namespace MapsExpress

/-- C11, as the code has it. Listening-port defaults: for a server object, the
public port is `port` when that member is an unsigned integer and 8080
otherwise; the internal port is `internal_port` when that member is an unsigned
integer and 8081 otherwise, whatever `port` is; the two sockets listen on these
values modulo 65536. -/
theorem port_defaults (kvs : List (String × Json)) :
    ∃ http_port internal_http_port,
      configuredPorts (Json.obj kvs) = some (http_port, internal_http_port)
        ∧ ((serverField kvs "port").isUInt = true → http_port = (serverField kvs "port").asUInt)
        ∧ ((serverField kvs "port").isUInt = false → http_port = 8080)
        ∧ ((serverField kvs "internal_port").isUInt = true →
            internal_http_port = (serverField kvs "internal_port").asUInt)
        ∧ ((serverField kvs "internal_port").isUInt = false → internal_http_port = 8081)
        ∧ listeningPorts (Json.obj kvs)
            = some (http_port % 65536, internal_http_port % 65536) := by
  refine ⟨FromJsonUInt (serverField kvs "port") kDefaultPort,
    FromJsonUInt (serverField kvs "internal_port") (kDefaultPort + 1), rfl, ?_, ?_, ?_, ?_, rfl⟩
  · intro h; simp [FromJsonUInt, h]
  · intro h; simp [FromJsonUInt, h, kDefaultPort]
  · intro h; simp [FromJsonUInt, h]
  · intro h; simp [FromJsonUInt, h, kDefaultPort]

theorem port_defaults_witness :
    ∃ http_port internal_http_port,
      configuredPorts (Json.obj [("port", Json.int 9000)]) = some (http_port, internal_http_port)
        ∧ ((serverField [("port", Json.int 9000)] "port").isUInt = true →
            http_port = (serverField [("port", Json.int 9000)] "port").asUInt)
        ∧ ((serverField [("port", Json.int 9000)] "port").isUInt = false → http_port = 8080)
        ∧ ((serverField [("port", Json.int 9000)] "internal_port").isUInt = true →
            internal_http_port = (serverField [("port", Json.int 9000)] "internal_port").asUInt)
        ∧ ((serverField [("port", Json.int 9000)] "internal_port").isUInt = false →
            internal_http_port = 8081)
        ∧ listeningPorts (Json.obj [("port", Json.int 9000)])
            = some (http_port % 65536, internal_http_port % 65536) :=
  port_defaults [("port", Json.int 9000)]

/-- C11, as stated, fails: with `port` 9000 and no `internal_port` the internal
port is 8081, not 9001. -/
theorem internal_port_ignores_port :
    configuredPorts (Json.obj [("port", Json.int 9000)]) = some (9000, 8081)
      ∧ listeningPorts (Json.obj [("port", Json.int 9000)]) = some (9000, 8081)
      ∧ (8081 : Nat) ≠ 9000 + 1 := by
  decide

/-- C12, as the code has it. Style name and map are mandatory: `ParseStyleInfo`
returns true only if the name is non-empty and the `map` member is a string;
the parsed record then has the given name and the `map` value as its path. It
returns false when the name is empty and when `map` is missing or not a string.
A `map` that is the empty string is not rejected. -/
theorem ParseStyleInfo_requires_name_and_map (name : String) (j : Json) (info : StyleInfo) :
    (∀ info', ParseStyleInfo name j info = (some true, info') →
        name ≠ "" ∧ ∃ p, j.get "map" = some (Json.str p) ∧ info'.name = name ∧ info'.path = p)
      ∧ (name = "" → (ParseStyleInfo name j info).1 = some false)
      ∧ (∀ jm, j.get "map" = some jm → jm.isString = false →
          (ParseStyleInfo name j info).1 = some false)
      ∧ (name ≠ "" → j.get "map" = some (Json.str "") →
          (ParseStyleInfo name j info).1 ≠ some false
            ∧ (ParseStyleInfo name j info).2.path = "") := by
  refine ⟨fun info' h => ParseStyleInfo_true name j info info' h, ?_, ?_, ?_⟩
  · intro h
    rw [h]
    exact ParseStyleInfo_empty_name j info
  · intro jm hm hs
    exact ParseStyleInfo_map_not_string name j jm info hm hs
  · intro hname hm
    have hn : name.isEmpty = false := by
      rw [Bool.eq_false_iff, ne_eq, String.isEmpty_iff]; exact hname
    obtain ⟨a, ha⟩ := get_isSome_of_get j "map" "allow_utfgrid" _ hm
    obtain ⟨v, hv⟩ := get_isSome_of_get j "map" "version" _ hm
    rw [ParseStyleInfo_of_fields name j info "" a v hn hm ha hv]
    split
    · exact ⟨by simp, rfl⟩
    · split
      · exact ⟨by simp, rfl⟩
      · exact ⟨by simp, rfl⟩

theorem ParseStyleInfo_requires_name_and_map_witness :
    ("s2" : String) ≠ ""
      ∧ ∃ p, (Json.obj [("map", Json.str "/m/s2.xml")]).get "map" = some (Json.str p)
          ∧ ({ name := "s2", path := "/m/s2.xml", allow_grid_render := false,
               version := 0 } : StyleInfo).name = "s2"
          ∧ ({ name := "s2", path := "/m/s2.xml", allow_grid_render := false,
               version := 0 } : StyleInfo).path = p :=
  (ParseStyleInfo_requires_name_and_map "s2" (Json.obj [("map", Json.str "/m/s2.xml")])
      StyleInfo.fresh).1
    { name := "s2", path := "/m/s2.xml", allow_grid_render := false, version := 0 }
    (by decide)

/-- C12, as stated, fails: a style whose `map` is the empty string is accepted,
with an empty path. -/
theorem ParseStyleInfo_accepts_empty_map :
    ParseStyleInfo "s" (Json.obj [("map", Json.str "")]) StyleInfo.fresh
      = (some true, { name := "s", path := "", allow_grid_render := false, version := 0 }) := by
  decide

/-- C13. A boolean `allow_utfgrid` is not assigned: for the style
`{"map": "/m/s.xml", "allow_utfgrid": true}` `ParseStyleInfo` returns true and
leaves `allow_grid_render` at its initial false, while the non-boolean 1 in the
same place sets it to true. -/
theorem allow_utfgrid_bool_not_assigned :
    ParseStyleInfo "s"
        (Json.obj [("map", Json.str "/m/s.xml"), ("allow_utfgrid", Json.bool true)])
        StyleInfo.fresh
      = (some true, { name := "s", path := "/m/s.xml", allow_grid_render := false, version := 0 })
    ∧ ParseStyleInfo "s"
        (Json.obj [("map", Json.str "/m/s.xml"), ("allow_utfgrid", Json.int 1)])
        StyleInfo.fresh
      = (some true, { name := "s", path := "/m/s.xml", allow_grid_render := true, version := 0 }) := by
  decide

/-- C14. Request routing: `onRequest` creates the health handler exactly when
the method is GET and the path is the string `/mon`; every other request, `GET
/mon/` and `POST /mon` among them, gets a tile handler that holds the endpoint
table published at that moment. -/
theorem onRequest_routing (f : HttpHandlerFactory) (method : Option HTTPMethod) (path : String) :
    (f.onRequest method path = RequestHandler.MonHandler f.monitor_
        ↔ method = some HTTPMethod.GET ∧ path = "/mon")
      ∧ (¬ (method = some HTTPMethod.GET ∧ path = "/mon") →
          f.onRequest method path = RequestHandler.TileHandler f.endpoints_)
      ∧ f.onRequest (some HTTPMethod.GET) "/mon/" = RequestHandler.TileHandler f.endpoints_
      ∧ f.onRequest (some HTTPMethod.POST) "/mon" = RequestHandler.TileHandler f.endpoints_ := by
  refine ⟨?_, ?_, ?_, ?_⟩
  · unfold HttpHandlerFactory.onRequest
    split
    · rename_i h; simp [h]
    · rename_i h; simp [h]
  · intro h
    unfold HttpHandlerFactory.onRequest
    rw [if_neg h]
  · unfold HttpHandlerFactory.onRequest
    rw [if_neg (by decide)]
  · unfold HttpHandlerFactory.onRequest
    rw [if_neg (by decide)]

theorem onRequest_routing_witness :
    ({ endpoints_ := some [("/t/", [])], monitor_ := 0 } : HttpHandlerFactory).onRequest
        (some HTTPMethod.HEAD) "/mon"
      = RequestHandler.TileHandler (some [("/t/", [])]) :=
  (onRequest_routing { endpoints_ := some [("/t/", [])], monitor_ := 0 }
    (some HTTPMethod.HEAD) "/mon").2.1 (by decide)

/-- C19, as the code has it. Endpoint update on bad input: `UpdateConfig` returns
false exactly when the `endpoints` member of the update can be read and is not
a JSON object, and the factory is then as it was. When the member is an object
in which every entry is a JSON object (or null), it returns true and the
published table is the one `ParseEndpoints` returns for the member, the old
table being replaced as a whole, also by an empty one. When the member is an
object with an entry that is any other JSON value, or the update itself is
neither an object nor null, `Json::LogicError` leaves `UpdateConfig`: it returns
nothing and the published table stays as it was. -/
theorem UpdateConfig_atomic (f : HttpHandlerFactory) (update : Json) :
    ((f.UpdateConfig update).1 = some false
        ↔ ∃ j, update.get "endpoints" = some j ∧ j.isObject = false)
      ∧ ((f.UpdateConfig update).1 ≠ some true → (f.UpdateConfig update).2 = f)
      ∧ (∀ kvs, update.get "endpoints" = some (Json.obj kvs) →
          ((∀ path v, Json.find path kvs = some v → ∀ e ∈ v.elems, IsEntry e = true) →
            ∃ table, ParseEndpoints (Json.obj kvs) = some (some table)
              ∧ f.UpdateConfig update = (some true, { f with endpoints_ := some table }))
          ∧ (kvs = [] → f.UpdateConfig update = (some true, { f with endpoints_ := some [] }))
          ∧ ((∃ path v e, Json.find path kvs = some v ∧ e ∈ v.elems ∧ IsEntry e = false) →
              f.UpdateConfig update = (none, f)))
      ∧ (update.get "endpoints" = none → f.UpdateConfig update = (none, f)) := by
  refine ⟨?_, ?_, ?_, ?_⟩
  · cases hget : update.get "endpoints" with
    | none => simp [HttpHandlerFactory.UpdateConfig, hget]
    | some j =>
      cases j with
      | obj kvs =>
        cases ht : ParseEndpointsLoop kvs [] <;>
          simp [HttpHandlerFactory.UpdateConfig, hget, ParseEndpoints, ht, Json.isObject]
      | _ => simp [HttpHandlerFactory.UpdateConfig, hget, ParseEndpoints, Json.isObject]
  · cases hget : update.get "endpoints" with
    | none => simp [HttpHandlerFactory.UpdateConfig, hget]
    | some j =>
      cases hp : ParseEndpoints j with
      | none => simp [HttpHandlerFactory.UpdateConfig, hget, hp]
      | some r => cases r <;> simp [HttpHandlerFactory.UpdateConfig, hget, hp]
  · intro kvs hget
    refine ⟨?_, ?_, ?_⟩
    · intro hgood
      cases ht : ParseEndpointsLoop kvs [] with
      | none =>
        obtain ⟨path, v, e, hf, _, he, hi⟩ := (ParseEndpointsLoop_eq_none_iff kvs []).1 ht
        rw [hgood path v hf e he] at hi
        simp at hi
      | some table =>
        have hp : ParseEndpoints (Json.obj kvs) = some (some table) := by
          simp [ParseEndpoints, ht]
        exact ⟨table, hp, by simp [HttpHandlerFactory.UpdateConfig, hget, hp]⟩
    · intro hk
      subst hk
      simp [HttpHandlerFactory.UpdateConfig, hget, ParseEndpoints, ParseEndpointsLoop]
    · rintro ⟨path, v, e, hf, he, hi⟩
      have ht := (ParseEndpointsLoop_eq_none_iff kvs []).2 ⟨path, v, e, hf, rfl, he, hi⟩
      simp [HttpHandlerFactory.UpdateConfig, hget, ParseEndpoints, ht]
  · intro hget
    simp [HttpHandlerFactory.UpdateConfig, hget]

theorem UpdateConfig_atomic_witness :
    (∃ table, ParseEndpoints (Json.obj sampleEndpointMembers) = some (some table)
        ∧ ({ endpoints_ := some [("/old/", [])], monitor_ := 0 } : HttpHandlerFactory).UpdateConfig
            (Json.obj [("endpoints", Json.obj sampleEndpointMembers)])
          = (some true, { endpoints_ := some table, monitor_ := 0 }))
      ∧ ({ endpoints_ := some [("/old/", [])], monitor_ := 0 } : HttpHandlerFactory).UpdateConfig
            (Json.obj [("endpoints", Json.obj [("/t/", Json.arr [sampleGridEntry, Json.int 5])])])
          = (none, { endpoints_ := some [("/old/", [])], monitor_ := 0 })
      ∧ ({ endpoints_ := some [("/old/", [])], monitor_ := 0 } : HttpHandlerFactory).UpdateConfig
            (Json.str "endpoints")
          = (none, { endpoints_ := some [("/old/", [])], monitor_ := 0 }) :=
  ⟨((UpdateConfig_atomic { endpoints_ := some [("/old/", [])], monitor_ := 0 }
        (Json.obj [("endpoints", Json.obj sampleEndpointMembers)])).2.2.1
        sampleEndpointMembers rfl).1
      (fun path v hf e he =>
        (by decide : ∀ kv ∈ sampleEndpointMembers, ∀ x ∈ kv.2.elems, IsEntry x = true)
          (path, v) (mem_of_find path _ v hf) e he),
   ((UpdateConfig_atomic { endpoints_ := some [("/old/", [])], monitor_ := 0 }
        (Json.obj [("endpoints", Json.obj [("/t/", Json.arr [sampleGridEntry, Json.int 5])])])).2.2.1
        [("/t/", Json.arr [sampleGridEntry, Json.int 5])] rfl).2.2
      ⟨"/t/", Json.arr [sampleGridEntry, Json.int 5], Json.int 5, rfl, by simp [Json.elems], rfl⟩,
   (UpdateConfig_atomic { endpoints_ := some [("/old/", [])], monitor_ := 0 }
        (Json.str "endpoints")).2.2.2 rfl⟩

/-- C19, as stated, fails: the `endpoints` member `{"/t/": ["x"]}` is a JSON
object, yet `UpdateConfig` does not return true: reading the fields of the
string entry raises `Json::LogicError`, nothing is returned and the table
`ParseEndpoints` would publish does not exist. -/
theorem UpdateConfig_raises_on_string_entry :
    (Json.obj [("/t/", Json.arr [Json.str "x"])]).isObject = true
      ∧ ParseEndpoints (Json.obj [("/t/", Json.arr [Json.str "x"])]) = none
      ∧ ({ endpoints_ := some [("/old/", [])], monitor_ := 0 } : HttpHandlerFactory).UpdateConfig
            (Json.obj [("endpoints", Json.obj [("/t/", Json.arr [Json.str "x"])])])
          = (none, { endpoints_ := some [("/old/", [])], monitor_ := 0 }) := by
  refine ⟨by decide, by decide, by decide⟩

end MapsExpress

/-! ## Order, parse failure and termination: auxiliary facts -/

namespace MapsExpress

namespace RenderManager

theorem reverse_eq_getLast_cons (q : List Worker) (t : Worker) (h : q.getLast? = some t) :
    q.reverse = t :: q.dropLast.reverse := by
  rcases List.eq_nil_or_concat q with rfl | ⟨l, a, rfl⟩
  · simp at h
  · rw [List.concat_eq_append] at h ⊢
    rw [List.getLast?_concat] at h
    have : a = t := by simpa using h
    subst this
    rw [List.dropLast_concat, List.reverse_append]
    rfl

theorem PoolRun_partial_exact (US : Worker → List StyleInfo → Bool) (fuel : Nat)
    (suf pre : List Worker) (s : RenderManager) (hpre : pre ≠ [])
    (hw : s.workers_to_update_ = pre ++ suf)
    (hi : s.render_pool_.inbox = [(pre ++ suf).getLast?])
    (hok : ∀ x ∈ suf, US x s.pending_update_ = true) :
    ∃ s', PoolRun US fuel suf.length s = some s'
      ∧ s'.render_pool_.control = s.render_pool_.control
          ++ updateCalls ((pre ++ suf).dropLast.reverse.take suf.length)
      ∧ s'.style_names_ = s.style_names_ := by
  induction suf using List.reverseRecOn generalizing s with
  | nil => exact ⟨s, rfl, by simp [updateCalls], rfl⟩
  | append_singleton l a ih =>
    have hw2 : s.workers_to_update_ = (pre ++ l) ++ [a] := by rw [hw]; simp
    have hi2 : s.render_pool_.inbox = [some a] := by
      rw [hi, ← List.append_assoc, List.getLast?_concat]
    have ha : US a s.pending_update_ = true := hok a (by simp)
    have hstep := PoolStep_prepared US fuel (pre ++ l) a s (by simp [hpre]) hw2 hi2 ha
    obtain ⟨s', hrun, hc, hn⟩ := ih (advanced s) (advanced_workers _ a s hw2)
      (by
        simp only [advanced, ExecuteOnWorker, hw2, List.dropLast_concat]
        simp)
      (by
        intro x hx
        have := hok x (by simp [hx])
        simpa [advanced, ExecuteOnWorker] using this)
    obtain ⟨t, ht⟩ : ∃ t, (pre ++ l).getLast? = some t := by
      cases h : (pre ++ l).getLast? with
      | none => simp [hpre] at h
      | some t => exact ⟨t, rfl⟩
    refine ⟨s', ?_, ?_, ?_⟩
    · rw [List.length_append, List.length_singleton, PoolRun, hstep, Option.some_bind, hrun]
    · rw [hc]
      have hadv : (advanced s).render_pool_.control
          = s.render_pool_.control ++ updateCalls [t] := by
        simp only [advanced, ExecuteOnWorker, hw2, List.dropLast_concat, ht]
        simp [updateCalls]
      rw [hadv, ← List.append_assoc pre l [a], List.dropLast_concat,
        reverse_eq_getLast_cons (pre ++ l) t ht, List.length_append, List.length_singleton,
        List.take_succ_cons, List.append_assoc]
      simp [updateCalls]
    · rw [hn]; rfl

theorem targets_filter_callsOn (a b : Action) (ws : List (Option Worker)) :
    ((callsOn b ws).filter (fun d => decide (d.action = a))).map Dispatch.target
      = if b = a then ws else [] := by
  induction ws with
  | nil => simp [callsOn]
  | cons x xs ih =>
    simp only [callsOn, List.map_cons] at ih ⊢
    by_cases h : b = a
    · simp [List.filter_cons, h] at ih ⊢
      exact ih
    · simp [List.filter_cons, h] at ih ⊢

theorem updateCalls_eq_callsOn (ws : List Worker) :
    updateCalls ws = callsOn Action.UpdateWorker (ws.map some) := by
  simp [updateCalls, callsOn]

theorem targetsOf_after (a : Action) (s s' : RenderManager) (asked : List Worker)
    (b : Action) (ws : List (Option Worker))
    (h : s'.render_pool_.control = s.render_pool_.control ++ updateCalls asked ++ callsOn b ws) :
    targetsOf a s' = targetsOf a s
      ++ (if Action.UpdateWorker = a then asked.map some else [])
      ++ (if b = a then ws else []) := by
  rw [targetsOf_append a s s' (updateCalls asked ++ callsOn b ws) (by rw [h, List.append_assoc]),
    List.filter_append, List.map_append, updateCalls_eq_callsOn, targets_filter_callsOn,
    targets_filter_callsOn, List.append_assoc]

theorem update_run_cancelled (US : Worker → List StyleInfo → Bool) (fuel : Nat)
    (s : RenderManager) (X : Json) (L : List StyleInfo) (pre suf : List Worker) (v : Worker)
    (hinit : s.inited_ = true) (hfree : s.updating_ = false)
    (hinbox : s.render_pool_.inbox = [])
    (hparse : ParseStyles X s.pending_update_ = (some true, L))
    (hW : s.render_pool_.workers = pre ++ [v] ++ suf)
    (hv : US v L = false) (hsuf : ∀ x ∈ suf, US x L = true) :
    ∃ s', (PostStyleUpdate (fuel + 2) X s).bind
          (PoolRun US (fuel + 2) s.render_pool_.workers.length) = some s'
      ∧ s'.render_pool_.control = s.render_pool_.control ++ updateCalls (v :: suf).reverse
          ++ callsOn Action.CancelUpdate (s.updated_workers_ ++ suf.reverse.map some)
      ∧ s'.style_names_ = s.style_names_ ∧ s'.updating_ = false
      ∧ s'.render_pool_.inbox = [] ∧ s'.pending_update_ = []
      ∧ s'.workers_to_update_ = [] ∧ s'.updated_workers_ = [] := by
  rw [PostStyleUpdate_started (fuel + 1) s X L hinit hfree hparse, Option.some_bind]
  rcases List.eq_nil_or_concat suf with rfl | ⟨mid, w, rfl⟩
  · have hW' : s.render_pool_.workers = pre ++ [v] := by simpa using hW
    have key := PoolRun_first_failed US fuel v (started s X L) s.render_pool_.workers.length
      (by simp [started, ExecuteOnWorker, hinbox, hW'])
      (by simp [started, ExecuteOnWorker])
      (by simpa [started, ExecuteOnWorker] using hv)
      (by simp [hW'])
    refine ⟨_, key, ?_, rfl, rfl, rfl, rfl, rfl, rfl⟩
    rw [cancelled_started_control, hW', List.getLast?_concat]
    simp [updateCalls, callsOn]
  · have hW' : s.render_pool_.workers = pre ++ [v] ++ mid ++ [w] := by
      rw [hW]; simp
    have key := PoolRun_later_failed US fuel mid pre v w (started s X L)
      s.render_pool_.workers.length
      (by simp only [started, ExecuteOnWorker]; exact hW')
      (by
        simp only [started, ExecuteOnWorker, hinbox, hW', List.getLast?_concat]
        simp)
      (by simp [started, ExecuteOnWorker])
      (by simpa [started, ExecuteOnWorker] using hv)
      (by
        intro x hx
        have := hsuf x (by simpa using hx)
        simpa [started, ExecuteOnWorker] using this)
      (by simp [hW'])
    refine ⟨_, key, ?_, rfl, rfl, rfl, rfl, rfl, rfl⟩
    rw [cancelled_started_control, hW', List.getLast?_concat]
    simp [updateCalls, callsOn]

theorem update_run_prefix (US : Worker → List StyleInfo → Bool) (fuel : Nat)
    (s : RenderManager) (X : Json) (L : List StyleInfo) (pre suf : List Worker) (v : Worker)
    (hinit : s.inited_ = true) (hfree : s.updating_ = false)
    (hinbox : s.render_pool_.inbox = [])
    (hparse : ParseStyles X s.pending_update_ = (some true, L))
    (hW : s.render_pool_.workers = pre ++ [v] ++ suf)
    (hsuf : ∀ x ∈ suf, US x L = true) (k : Nat) (hk : k ≤ suf.length) :
    ∃ sk, (PostStyleUpdate (fuel + 2) X s).bind (PoolRun US (fuel + 2) k) = some sk
      ∧ sk.render_pool_.control = s.render_pool_.control
          ++ updateCalls ((v :: suf).reverse.take (k + 1)) ++ callsOn Action.CancelUpdate [] := by
  rw [PostStyleUpdate_started (fuel + 1) s X L hinit hfree hparse, Option.some_bind]
  have hsplit : suf = suf.take (suf.length - k) ++ suf.drop (suf.length - k) :=
    (List.take_append_drop _ _).symm
  have hlen : (suf.drop (suf.length - k)).length = k := by simp; omega
  have hW' : s.render_pool_.workers
      = (pre ++ [v] ++ suf.take (suf.length - k)) ++ suf.drop (suf.length - k) := by
    rw [List.append_assoc (pre ++ [v]), ← hsplit, hW]
  obtain ⟨sk, hrun, hc, _⟩ := PoolRun_partial_exact US (fuel + 2)
    (suf.drop (suf.length - k)) (pre ++ [v] ++ suf.take (suf.length - k)) (started s X L)
    (by simp)
    (by simp only [started, ExecuteOnWorker]; exact hW')
    (by
      rw [← hW']
      simp [started, ExecuteOnWorker, hinbox])
    (by
      intro x hx
      have := hsuf x (List.mem_of_mem_drop hx)
      simpa [started, ExecuteOnWorker] using this)
  rw [hlen] at hrun hc
  refine ⟨sk, hrun, ?_⟩
  rw [hc, ← hW']
  obtain ⟨t, ht⟩ : ∃ t, s.render_pool_.workers.getLast? = some t := by
    cases h : s.render_pool_.workers.getLast? with
    | none => rw [hW] at h; simp at h
    | some t => exact ⟨t, rfl⟩
  have hstart : (started s X L).render_pool_.control
      = s.render_pool_.control ++ updateCalls [t] := by
    simp [started, ExecuteOnWorker, ht, updateCalls]
  have hrev : s.render_pool_.workers.reverse = (v :: suf).reverse ++ pre.reverse := by
    rw [hW]; simp
  have htake : t :: s.render_pool_.workers.dropLast.reverse.take k
      = (v :: suf).reverse.take (k + 1) := by
    rw [← List.take_succ_cons, ← reverse_eq_getLast_cons _ t ht, hrev,
      List.take_append_of_le_length (by simp; omega)]
  rw [hstart, ← htake]
  simp [updateCalls, callsOn]

theorem TryProcessStyleUpdate_returns (fuel : Nat) (s : RenderManager) :
    ∃ s', TryProcessStyleUpdate (fuel + 3) s = some s'
      ∧ (s' = s ∨ ∃ X, s.styles_update_ = some X ∧ s'.parsed_ = s.parsed_ ++ [X]
                        ∧ s'.styles_update_ = none) := by
  cases hsnap : s.styles_update_ with
  | none => exact ⟨s, TryProcessStyleUpdate_no_snapshot (fuel + 2) s hsnap, Or.inl rfl⟩
  | some X =>
    cases hinit : s.inited_ with
    | false => exact ⟨s, by simp [TryProcessStyleUpdate, hinit], Or.inl rfl⟩
    | true =>
      cases hupd : s.updating_ with
      | true => exact ⟨s, by simp [TryProcessStyleUpdate, hinit, hupd, hsnap], Or.inl rfl⟩
      | false =>
        obtain ⟨s', _, h, hp, hs, _⟩ := TryProcessStyleUpdate_drains_once fuel X s hinit hupd hsnap
        exact ⟨s', h, Or.inr ⟨X, rfl, hp, hs⟩⟩

end RenderManager

end MapsExpress

/-! ## Order, parse failure and termination: claims -/

namespace MapsExpress

namespace RenderManager

/-- C15. Serial reverse-order prepare and targeted cancel: for the pool
`pre ++ [v] ++ suf` in which `v` is the first worker, from the back, whose
prepare fails, the update hands `UpdateWorker` to the workers of `suf` from
the last to the first and then to `v`, one more after each successful prepare
and to no other worker, and then hands `CancelUpdate` to the workers of `suf`
in the same order and to no other worker; nothing is committed and the
style-name set is unchanged. -/
theorem prepare_order_and_targeted_cancel (US : Worker → List StyleInfo → Bool) (fuel : Nat)
    (s : RenderManager) (X : Json) (L : List StyleInfo) (pre suf : List Worker) (v : Worker)
    (hinit : s.inited_ = true) (hfree : s.updating_ = false)
    (hinbox : s.render_pool_.inbox = []) (hupd : s.updated_workers_ = [])
    (hparse : ParseStyles X s.pending_update_ = (some true, L))
    (hW : s.render_pool_.workers = pre ++ [v] ++ suf)
    (hv : US v L = false) (hsuf : ∀ x ∈ suf, US x L = true) :
    (∃ s', (PostStyleUpdate (fuel + 2) X s).bind
          (PoolRun US (fuel + 2) s.render_pool_.workers.length) = some s'
      ∧ targetsOf Action.UpdateWorker s'
          = targetsOf Action.UpdateWorker s ++ (v :: suf).reverse.map some
      ∧ targetsOf Action.CancelUpdate s'
          = targetsOf Action.CancelUpdate s ++ suf.reverse.map some
      ∧ targetsOf Action.CommitUpdate s' = targetsOf Action.CommitUpdate s
      ∧ s'.style_names_ = s.style_names_ ∧ s'.updating_ = false)
    ∧ (∀ k, k ≤ suf.length →
        ∃ sk, (PostStyleUpdate (fuel + 2) X s).bind (PoolRun US (fuel + 2) k) = some sk
          ∧ targetsOf Action.UpdateWorker sk
              = targetsOf Action.UpdateWorker s ++ ((v :: suf).reverse.take (k + 1)).map some
          ∧ targetsOf Action.CancelUpdate sk = targetsOf Action.CancelUpdate s)
    ∧ ((pre ++ [v] ++ suf).Nodup →
        (∀ x ∈ pre, x ∉ (v :: suf).reverse ∧ x ∉ suf.reverse)
          ∧ v ∉ suf.reverse ∧ suf.reverse.Nodup) := by
  refine ⟨?_, ?_, ?_⟩
  · obtain ⟨s', hrun, hc, hn, hu, _⟩ :=
      update_run_cancelled US fuel s X L pre suf v hinit hfree hinbox hparse hW hv hsuf
    rw [hupd, List.nil_append] at hc
    refine ⟨s', hrun, ?_, ?_, ?_, hn, hu⟩
    · rw [targetsOf_after Action.UpdateWorker s s' _ _ _ hc]
      simp
    · rw [targetsOf_after Action.CancelUpdate s s' _ _ _ hc]
      simp
    · rw [targetsOf_after Action.CommitUpdate s s' _ _ _ hc]
      simp
  · intro k hk
    obtain ⟨sk, hrun, hc⟩ :=
      update_run_prefix US fuel s X L pre suf v hinit hfree hinbox hparse hW hsuf k hk
    refine ⟨sk, hrun, ?_, ?_⟩
    · rw [targetsOf_after Action.UpdateWorker s sk _ _ _ hc]
      simp
    · rw [targetsOf_after Action.CancelUpdate s sk _ _ _ hc]
      simp
  · intro hnd
    have h1 : (pre ++ ([v] ++ suf)).Nodup := by simpa using hnd
    rw [List.nodup_append] at h1
    obtain ⟨_, h2, h3⟩ := h1
    have h4 : ([v] ++ suf).Nodup := h2
    rw [List.nodup_append] at h4
    refine ⟨fun x hx => ⟨?_, ?_⟩, ?_, ?_⟩
    · intro hx'
      exact h3 hx (by simpa [or_comm] using hx')
    · intro hx'
      exact h3 hx (by simp at hx' ⊢; exact Or.inr hx')
    · intro hv'
      exact h4.2.2 (List.mem_singleton.2 rfl) (by simpa using hv')
    · exact List.nodup_reverse.2 h4.2.1

theorem prepare_order_and_targeted_cancel_witness :
    (∃ s', (PostStyleUpdate 2 sampleSnapshot (idleManager [1, 2, 3] ["s1"])).bind
          (PoolRun failsOnTwo 2 3) = some s'
      ∧ targetsOf Action.UpdateWorker s'
          = targetsOf Action.UpdateWorker (idleManager [1, 2, 3] ["s1"]) ++ [some 3, some 2]
      ∧ targetsOf Action.CancelUpdate s'
          = targetsOf Action.CancelUpdate (idleManager [1, 2, 3] ["s1"]) ++ [some 3]
      ∧ targetsOf Action.CommitUpdate s'
          = targetsOf Action.CommitUpdate (idleManager [1, 2, 3] ["s1"])
      ∧ s'.style_names_ = ["s1"] ∧ s'.updating_ = false)
    ∧ (∀ k, k ≤ 1 →
        ∃ sk, (PostStyleUpdate 2 sampleSnapshot (idleManager [1, 2, 3] ["s1"])).bind
            (PoolRun failsOnTwo 2 k) = some sk
          ∧ targetsOf Action.UpdateWorker sk
              = targetsOf Action.UpdateWorker (idleManager [1, 2, 3] ["s1"])
                ++ (([3, 2] : List Worker).take (k + 1)).map some
          ∧ targetsOf Action.CancelUpdate sk
              = targetsOf Action.CancelUpdate (idleManager [1, 2, 3] ["s1"]))
    ∧ (([1, 2, 3] : List Worker).Nodup →
        (∀ x ∈ ([1] : List Worker), x ∉ ([3, 2] : List Worker) ∧ x ∉ ([3] : List Worker))
          ∧ (2 : Worker) ∉ ([3] : List Worker) ∧ ([3] : List Worker).Nodup) :=
  prepare_order_and_targeted_cancel failsOnTwo 0 (idleManager [1, 2, 3] ["s1"]) sampleSnapshot
    sampleStyles [1] [3] 2 rfl rfl rfl rfl (by decide) rfl (by decide) (by decide)

/-- C20. The drain recursion terminates: in the sequential model three nested
calls always suffice for `TryProcessStyleUpdate` and four for `FinishUpdate`;
a call that finds the slot empty returns at the first check, so the re-drain
that `FinishUpdate` issues after a drain took the snapshot goes no deeper; and
one `PostStyleUpdate` hands at most its own snapshot to `ParseStyles`, once,
after which the slot is empty. -/
theorem drain_recursion_terminates (fuel : Nat) (s : RenderManager) :
    (∃ s', TryProcessStyleUpdate (fuel + 3) s = some s')
      ∧ (∃ s', FinishUpdate (fuel + 4) s = some s')
      ∧ (∀ t : RenderManager, t.styles_update_ = none →
          TryProcessStyleUpdate (fuel + 1) t = some t
            ∧ FinishUpdate (fuel + 2) t = some (released t))
      ∧ (∀ X, ∃ s', PostStyleUpdate (fuel + 3) X s = some s'
          ∧ (s'.parsed_ = s.parsed_
              ∨ (s'.parsed_ = s.parsed_ ++ [X] ∧ s'.styles_update_ = none))) := by
  refine ⟨?_, ?_, ?_, ?_⟩
  · obtain ⟨s', h, _⟩ := TryProcessStyleUpdate_returns fuel s
    exact ⟨s', h⟩
  · obtain ⟨s', h, _⟩ := TryProcessStyleUpdate_returns fuel (released s)
    exact ⟨s', by simpa [FinishUpdate, released] using h⟩
  · intro t ht
    exact ⟨TryProcessStyleUpdate_no_snapshot fuel t ht, FinishUpdate_no_snapshot fuel t ht⟩
  · intro X
    obtain ⟨s', h, hcases⟩ :=
      TryProcessStyleUpdate_returns fuel { s with styles_update_ := some X }
    refine ⟨s', h, ?_⟩
    rcases hcases with rfl | ⟨Y, hY, hp, hs⟩
    · exact Or.inl rfl
    · have : X = Y := by simpa using hY
      subst this
      exact Or.inr ⟨hp, hs⟩

theorem drain_recursion_terminates_witness :
    TryProcessStyleUpdate 1 (idleManager [1, 2] ["s1"]) = some (idleManager [1, 2] ["s1"])
      ∧ FinishUpdate 2 (idleManager [1, 2] ["s1"]) = some (released (idleManager [1, 2] ["s1"])) :=
  (drain_recursion_terminates 0 (idleManager [1, 2] ["s1"])).2.2.1 (idleManager [1, 2] ["s1"]) rfl

end RenderManager

end MapsExpress

/-! ## The constructor: auxiliary facts -/

namespace MapsExpress

theorem TryProcessStyleUpdate_idle_cases (fuel : Nat) (X : Json) (t : RenderManager)
    (hinit : t.inited_ = true) (hfree : t.updating_ = false)
    (hsnap : t.styles_update_ = some X) :
    ∃ pending,
      (ParseStyles X t.pending_update_ = (none, pending)
        ∧ RenderManager.TryProcessStyleUpdate (fuel + 3) t
          = some { t with updating_ := true, styles_update_ := none, pending_update_ := pending,
                          parsed_ := t.parsed_ ++ [X], threw_ := true })
      ∨ (ParseStyles X t.pending_update_ = (some false, pending)
        ∧ RenderManager.TryProcessStyleUpdate (fuel + 3) t
          = some (RenderManager.released
              { t with updating_ := true, styles_update_ := none, pending_update_ := pending,
                       parsed_ := t.parsed_ ++ [X] }))
      ∨ (ParseStyles X t.pending_update_ = (some true, pending)
        ∧ RenderManager.TryProcessStyleUpdate (fuel + 3) t
          = some (RenderManager.started t X pending)) := by
  rcases hparse : ParseStyles X t.pending_update_ with ⟨r, pending⟩
  refine ⟨pending, ?_⟩
  rcases r with _ | _ | _
  · refine Or.inl ⟨rfl, ?_⟩
    simp [RenderManager.TryProcessStyleUpdate, hinit, hfree, hsnap, hparse]
  · refine Or.inr (Or.inl ⟨rfl, ?_⟩)
    simp only [RenderManager.TryProcessStyleUpdate, hinit, hfree, hsnap, hparse]
    simp only [Bool.not_true, Option.isNone_some, Bool.or_self, Bool.false_eq_true, if_false]
    rw [RenderManager.FinishUpdate_no_snapshot fuel _ rfl]
  · refine Or.inr (Or.inr ⟨rfl, ?_⟩)
    simp [RenderManager.TryProcessStyleUpdate, hinit, hfree, hsnap, hparse,
      RenderManager.started]

end MapsExpress

/-! ## The constructor: claims -/

namespace MapsExpress

end MapsExpress

/-! ## The worker-list invariant: auxiliary facts -/

namespace MapsExpress

namespace RenderManager

theorem WorkerListsInv_TryProcess (W : List Worker) (fuel : Nat) (t t' : RenderManager)
    (hinv : WorkerListsInv W t) (hstep : TryProcessStyleUpdate (fuel + 3) t = some t') :
    WorkerListsInv W t' := by
  obtain ⟨hW, hidle, hthrew, hflight⟩ := hinv
  cases hsnap : t.styles_update_ with
  | none =>
    rw [TryProcessStyleUpdate_no_snapshot (fuel + 2) t hsnap] at hstep
    cases hstep
    exact ⟨hW, hidle, hthrew, hflight⟩
  | some X =>
    cases hinit : t.inited_ with
    | false =>
      have : TryProcessStyleUpdate (fuel + 3) t = some t := by
        simp [TryProcessStyleUpdate, hinit]
      rw [this] at hstep
      cases hstep
      exact ⟨hW, hidle, hthrew, hflight⟩
    | true =>
      cases hupd : t.updating_ with
      | true =>
        have : TryProcessStyleUpdate (fuel + 3) t = some t := by
          simp [TryProcessStyleUpdate, hinit, hupd, hsnap]
        rw [this] at hstep
        cases hstep
        exact ⟨hW, hidle, hthrew, hflight⟩
      | false =>
        obtain ⟨hto, hup, _, hinbox, hth⟩ := hidle hupd
        obtain ⟨pending, h | h | h⟩ := TryProcessStyleUpdate_idle_cases fuel X t hinit hupd hsnap
        · rw [h.2] at hstep
          cases hstep
          exact ⟨hW, fun h => by simp at h, fun _ => ⟨rfl, hinbox⟩, fun _ h => by simp at h⟩
        · rw [h.2] at hstep
          cases hstep
          exact ⟨hW, fun _ => ⟨rfl, rfl, rfl, hinbox, hth⟩,
            fun h => by simp [released, hth] at h, fun h => by simp [released] at h⟩
        · rw [h.2] at hstep
          cases hstep
          refine ⟨hW, fun h => by simp [started, ExecuteOnWorker] at h,
            fun h => by simp [started, ExecuteOnWorker, hth] at h, fun _ _ => ⟨?_, ?_, ?_⟩⟩
          · simp [started, ExecuteOnWorker, hup, hW]
          · simp [started, ExecuteOnWorker, hinbox]
          · intro h0
            rw [← hW]
            simpa [started, ExecuteOnWorker] using h0

theorem WorkerListsInv_FinishUpdate (W : List Worker) (fuel : Nat) (t t' : RenderManager)
    (hW : t.render_pool_.workers = W) (hinbox : t.render_pool_.inbox = [])
    (hthrew : t.threw_ = false) (hstep : FinishUpdate (fuel + 4) t = some t') :
    WorkerListsInv W t' := by
  have hstep' : TryProcessStyleUpdate (fuel + 3) (released t) = some t' := by
    simpa [FinishUpdate, released] using hstep
  exact WorkerListsInv_TryProcess W fuel (released t) t'
    ⟨hW, fun _ => ⟨rfl, rfl, rfl, hinbox, hthrew⟩,
      fun h => by simp [released, hthrew] at h, fun h => by simp [released] at h⟩ hstep'

theorem WorkerListsInv_PoolStep (W : List Worker) (US : Worker → List StyleInfo → Bool)
    (fuel : Nat) (s s' : RenderManager) (hinv : WorkerListsInv W s)
    (hstep : PoolStep US (fuel + 4) s = some s') : WorkerListsInv W s' := by
  obtain ⟨hW, hidle, hthrew, hflight⟩ := hinv
  unfold PoolStep at hstep
  split at hstep
  · cases hstep
    exact ⟨hW, hidle, hthrew, hflight⟩
  · cases hstep
    exact ⟨hW, hidle, hthrew, hflight⟩
  · rename_i w rest hin
    have hupd : s.updating_ = true := by
      cases h : s.updating_ with
      | true => rfl
      | false =>
        have := (hidle h).2.2.2.1
        rw [hin] at this
        simp at this
    have hth : s.threw_ = false := by
      cases h : s.threw_ with
      | false => rfl
      | true =>
        have := (hthrew h).2
        rw [hin] at this
        simp at this
    obtain ⟨hrel, hbox, _⟩ := hflight hupd hth
    rw [hin] at hbox
    simp only [List.cons.injEq] at hbox
    have hlast : s.workers_to_update_.getLast? = some w := hbox.1.symm
    have hrest : rest = [] := hbox.2
    subst hrest
    obtain ⟨q, hq⟩ : ∃ q, s.workers_to_update_ = q ++ [w] := by
      rcases List.eq_nil_or_concat s.workers_to_update_ with h | ⟨q, a, h⟩
      · rw [h] at hlast; simp at hlast
      · rw [List.concat_eq_append] at h
        rw [h, List.getLast?_concat] at hlast
        have : a = w := by simpa using hlast
        exact ⟨q, by rw [h, this]⟩
    unfold UpdateWorker at hstep
    split at hstep
    · exact WorkerListsInv_FinishUpdate W fuel _ s'
        (by rw [ExecuteOnUpdated_eq _ (by decide)]; exact hW)
        (by rw [ExecuteOnUpdated_eq _ (by decide)]; rfl)
        (by rw [ExecuteOnUpdated_eq _ (by decide)]; exact hth) hstep
    · dsimp only at hstep
      split at hstep
      · exact WorkerListsInv_FinishUpdate W fuel _ s'
          (by
            show (ExecuteOnUpdated Action.CommitUpdate _).render_pool_.workers = W
            rw [ExecuteOnUpdated_eq _ (by decide)]; exact hW)
          (by
            show (ExecuteOnUpdated Action.CommitUpdate _).render_pool_.inbox = []
            rw [ExecuteOnUpdated_eq _ (by decide)]; rfl)
          (by
            show (ExecuteOnUpdated Action.CommitUpdate _).threw_ = false
            rw [ExecuteOnUpdated_eq _ (by decide)]; exact hth) hstep
      · rename_i hne
        cases hstep
        have hq' : q ≠ [] := by
          intro h
          apply hne
          simp [hq, h]
        refine ⟨hW, fun h => by simp [ExecuteOnWorker, hupd] at h,
          fun h => by simp [ExecuteOnWorker, hth] at h, fun _ _ => ⟨?_, ?_, ?_⟩⟩
        · rw [← hrel]
          simp [ExecuteOnWorker, hq]
        · simp [ExecuteOnWorker, hq]
        · intro h0
          exfalso
          apply hq'
          simpa [ExecuteOnWorker, hq] using h0

theorem WorkerListsInv_of_Reachable (W : List Worker) (s : RenderManager)
    (h : Reachable W s) : WorkerListsInv W s := by
  induction h with
  | init s hW hfree hto hup hpend hinbox hthrew =>
    exact ⟨hW, fun _ => ⟨hto, hup, hpend, hinbox, hthrew⟩,
      fun h => by rw [hthrew] at h; simp at h, fun h => by rw [hfree] at h; simp at h⟩
  | post fuel X s s' _ hstep ih =>
    exact WorkerListsInv_TryProcess W fuel { s with styles_update_ := some X } s' ih hstep
  | pool US fuel s s' _ hstep ih =>
    exact WorkerListsInv_PoolStep W US fuel s s' ih hstep
  | inited fuel s s' _ hstep ih =>
    exact WorkerListsInv_TryProcess W fuel { s with inited_ := true } s' ih hstep
  | render s request a b _ ih =>
    unfold Render
    split
    · exact ih
    · exact ih
  | subtile Valid s request a b _ ih =>
    unfold MakeSubtile
    split
    · exact ih
    · exact ih

end RenderManager

end MapsExpress

/-! ## The worker-list invariant: claims -/

namespace MapsExpress

namespace RenderManager

/-- C18. Worker-list invariant of the update protocol: in every state reached
over the pool `W`, when `updating_` is false both worker lists and the pending
list are empty; and while an update is in flight (`updating_` set, no
`Json::LogicError` having left `ParseStyles`) `workers_to_update_` followed by
the reverse of `updated_workers_` is `W`, the queued `UpdateWorker` closure is
on the last element of `workers_to_update_`, that list is non-empty for a
non-empty pool, and for distinct workers the two lists are disjoint. -/
theorem worker_lists_invariant (W : List Worker) (s : RenderManager) (h : Reachable W s) :
    (s.updating_ = false →
        s.workers_to_update_ = [] ∧ s.updated_workers_ = [] ∧ s.pending_update_ = [])
      ∧ (s.updating_ = true → s.threw_ = false →
          s.workers_to_update_.map some ++ s.updated_workers_.reverse = W.map some
            ∧ s.render_pool_.inbox = [s.workers_to_update_.getLast?]
            ∧ (W ≠ [] → s.workers_to_update_ ≠ [])
            ∧ (W.Nodup → ∀ x ∈ s.workers_to_update_, some x ∉ s.updated_workers_)) := by
  obtain ⟨_, hidle, _, hflight⟩ := WorkerListsInv_of_Reachable W s h
  refine ⟨fun hf => ⟨(hidle hf).1, (hidle hf).2.1, (hidle hf).2.2.1⟩, fun hu ht => ?_⟩
  obtain ⟨hrel, hbox, hne⟩ := hflight hu ht
  refine ⟨hrel, hbox, fun hW h0 => hW (hne h0), fun hnd x hx hmem => ?_⟩
  have hnd' : (W.map some).Nodup := hnd.map (Option.some_injective _)
  rw [← hrel, List.nodup_append] at hnd'
  exact hnd'.2.2 (List.mem_map.2 ⟨x, hx, rfl⟩) (List.mem_reverse.2 hmem)

theorem worker_lists_invariant_witness :
    (sampleInFlight.updating_ = false →
        sampleInFlight.workers_to_update_ = [] ∧ sampleInFlight.updated_workers_ = []
          ∧ sampleInFlight.pending_update_ = [])
      ∧ (sampleInFlight.updating_ = true → sampleInFlight.threw_ = false →
          sampleInFlight.workers_to_update_.map some ++ sampleInFlight.updated_workers_.reverse
              = ([1, 2, 3] : List Worker).map some
            ∧ sampleInFlight.render_pool_.inbox = [sampleInFlight.workers_to_update_.getLast?]
            ∧ (([1, 2, 3] : List Worker) ≠ [] → sampleInFlight.workers_to_update_ ≠ [])
            ∧ (([1, 2, 3] : List Worker).Nodup →
                ∀ x ∈ sampleInFlight.workers_to_update_, some x ∉ sampleInFlight.updated_workers_)) :=
  worker_lists_invariant [1, 2, 3] sampleInFlight
    (Reachable.pool alwaysPrepared 0
      (started (idleManager [1, 2, 3] ["s1"]) sampleSnapshot sampleStyles) sampleInFlight
      (Reachable.post 0 sampleSnapshot (idleManager [1, 2, 3] ["s1"])
        (started (idleManager [1, 2, 3] ["s1"]) sampleSnapshot sampleStyles)
        (Reachable.init (idleManager [1, 2, 3] ["s1"]) rfl rfl rfl rfl rfl rfl rfl)
        (PostStyleUpdate_started 2 (idleManager [1, 2, 3] ["s1"]) sampleSnapshot sampleStyles
          rfl rfl (by decide)))
      (PoolStep_prepared alwaysPrepared 4 [1, 2] 3
        (started (idleManager [1, 2, 3] ["s1"]) sampleSnapshot sampleStyles)
        (by decide) rfl rfl rfl))

end RenderManager

end MapsExpress
